import Mathlib

/-!
# AMF+1: the assembler (`fponeasm.cpp`) and the virtual machine (`vmfplusone_skeleton.cpp`)

A shallow embedding of the two C++ sources.

Conventions of the embedding.

* A C string (`char input[]`) is a `List Char`: one list element per byte, the
  terminating byte 0 being the end of the list (a byte 0 inside the list also
  terminates the scan, as it does in C).
* `int` is `Int`; where the source accumulates a value that can leave the 32-bit range
  the result is reduced with `wrap32` (two's complement, what the compiled code computes).
* `uint16_t` is a `Nat` kept below `65536` by an explicit `% 65536`; `int16_t` is an `Int`
  stored through `wrap16`.
* `throw n` is `Except.error n` in the assembler and `Outcome.thrown n s` in the machine,
  `s` being the machine at the moment of the throw.
* An access outside `RAM` or `REG`, and a division by zero, have no behaviour defined by
  the source: the machine model answers `Outcome.undefined` there.
-/

namespace AMF

/-! ## Machine integers -/

/-- Two's-complement reduction of an integer to the range of a 32-bit `int`. -/
def wrap32 (x : Int) : Int := (x + 2147483648) % 4294967296 - 2147483648

/-- The 32-bit pattern of an `int`, as the bitwise operators see it. -/
def bits32 (x : Int) : Nat := (x % 4294967296).toNat

/-- Conversion to `int16_t`: two's-complement reduction to `[-32768, 32767]`. -/
def wrap16 (x : Int) : Int := (x + 32768) % 65536 - 32768

/-- Conversion to `uint16_t`: reduction modulo `2^16`. -/
def to_u16 (x : Int) : Nat := (x % 65536).toNat

/-! ## fponeasm.cpp: the symbol tables -/

/-- The initialiser of `Opcodes` (fponeasm.cpp, lines 12-16). -/
def Opcodes_init : List (List Char × Nat) :=
  [("nop".toList, 0), ("add".toList, 1), ("sub".toList, 2), ("mult".toList, 3),
   ("div".toList, 4), ("push".toList, 5), ("pop".toList, 6), ("mov".toList, 7),
   ("load".toList, 8), ("store".toList, 9), ("jmp".toList, 10), ("jnz".toList, 11),
   ("jz".toList, 12), ("jn".toList, 13), ("call".toList, 14), ("ret".toList, 15)]

/-- The initialiser of `Registers` (fponeasm.cpp, lines 17-19). -/
def Registers_init : List (List Char × Nat) :=
  [("ax".toList, 0), ("bx".toList, 1), ("cx".toList, 2), ("sp".toList, 3),
   ("bp".toList, 4), ("ma".toList, 5)]

/-- The expression `Opcodes[strop]`. `operator[]` of `unordered_map` returns the stored value
and, for a key that is absent, inserts the key with the value-initialised `uint16_t` 0 and
returns that 0; the insertion does not change what any later lookup returns. -/
def Opcodes (strop : List Char) : Nat := (Opcodes_init.lookup strop).getD 0

/-- The expression `Registers[reg]`, with the same `operator[]` as `Opcodes`. -/
def Registers (reg : List Char) : Nat := (Registers_init.lookup reg).getD 0

/-! ## fponeasm.cpp: the lexer -/

/-- The function `char_type` (fponeasm.cpp, lines 28-37). -/
def char_type (c : Char) : Nat :=
  if c.toNat = 0 then 0
  else if c = ' ' ∨ c = '\t' ∨ c = '\n' then 1
  else
    let ac := c.toNat
    if ac > 47 ∧ ac < 58 then 2
    else if (ac > 65 ∧ ac < 91) ∨ (ac > 96 ∧ ac ≤ 'z'.toNat) then 3
    else if ac > 31 ∧ ac < 127 then 4
    else 5

/-- The loop `while (char_type(input[i])==1) i++;` run on the characters from `input[i]` on;
the end of the list is the terminator, whose type is 0. -/
def skip_white : List Char → Nat → Nat
  | [], i => i
  | c :: cs, i => if char_type c = 1 then skip_white cs (i + 1) else i

/-- The symbol loop `while (char_type(input[i])>2) { token_out[ti++] = input[i++]; answer++; }`
run on the characters from `input[i]` on. The state is `(i, token_out, answer)`; `token_out`
is the list of the characters written so far. -/
def symbol_loop : List Char → Nat → List Char → Int → Nat × List Char × Int
  | [], i, token_out, answer => (i, token_out, answer)
  | c :: cs, i, token_out, answer =>
    if char_type c > 2 then symbol_loop cs (i + 1) (token_out ++ [c]) (answer + 1)
    else (i, token_out, answer)

/-- The digit loop
`while (char_type(input[i])==2) { answer = answer*10 + ((int)input[i] - 48); i++; }`
run on the characters from `input[i]` on. The state is `(i, answer)`; the `int` accumulator
is reduced to 32 bits at every step. -/
def digit_loop : List Char → Nat → Int → Nat × Int
  | [], i, answer => (i, answer)
  | c :: cs, i, answer =>
    if char_type c = 2 then digit_loop cs (i + 1) (wrap32 (answer * 10 + ((c.toNat : Int) - 48)))
    else (i, answer)

/-- What a call of `next_token` leaves behind: the returned `int`, the cursor `*position`
and the contents of the buffer `token_out` (as a C string). -/
structure Lexed where
  result : Int
  position : Nat
  token_out : List Char

/-- The function `next_token` (fponeasm.cpp, lines 43-72). `token_out` is the buffer as the
caller passes it: at the end of the input the function returns -1 without writing to it. -/
def next_token (input : List Char) (position : Nat) (token_out : List Char) : Lexed :=
  let i := skip_white (input.drop position) position
  match input.drop i with
  | [] => ⟨-1, i, token_out⟩
  | c :: _ =>
    if c.toNat = 0 then ⟨-1, i, token_out⟩
    else
      let s := symbol_loop (input.drop i) i [] 0
      if s.2.2 > 0 then ⟨s.2.2, s.1, s.2.1⟩
      else
        let d := digit_loop (input.drop s.1) s.1 s.2.2
        ⟨d.2, d.1, s.2.1⟩

/-! ## fponeasm.cpp: the assembler -/

/-- The function `assemble` (fponeasm.cpp, lines 78-131). `operation` is the content of the
local buffer `char operation[8]` at entry, which the source does not initialise; it is only
read when the line holds no token at all. The text written to `cout` before one of the
throws is not modelled. A symbol of 8 or more characters overruns the buffer in the source;
the model keeps the whole symbol. -/
def assemble (operation : List Char) (input : List Char) : Except Nat Nat :=
  let t1 := next_token input 0 operation
  if t1.token_out = [] then .error 4
  else
    let opcode := Opcodes t1.token_out
    let instruction := (opcode <<< 12) % 65536
    if opcode = 0 ∨ opcode = 15 then .ok instruction
    else
      let t2 := next_token input t1.position t1.token_out
      if t2.token_out = [] then
        if opcode < 5 ∨ opcode = 7 then
          if t2.result ≥ 256 then .error 5
          else
            let instruction := (instruction ||| (bits32 t2.result <<< 3)) % 65536
            let t3 := next_token input t2.position t2.token_out
            if t3.token_out = [] ∨ t3.result ≠ 2 then .error 5
            else .ok ((instruction ||| Registers t3.token_out) % 65536)
        else if opcode = 5 ∨ opcode = 9 then
          if t2.result ≥ 2048 then .error 5
          else .ok ((instruction ||| bits32 t2.result) % 65536)
        else
          if t2.result ≥ 4096 then .error 5
          else .ok ((instruction ||| bits32 t2.result) % 65536)
      else
        if t2.result ≠ 2 then .error 5
        else
          let src := Registers t2.token_out
          if opcode < 5 ∨ opcode = 7 then
            let instruction := (instruction ||| 0x0800 ||| (src <<< 3)) % 65536
            let t3 := next_token input t2.position t2.token_out
            if t3.token_out = [] ∨ t3.result ≠ 2 then .error 5
            else .ok ((instruction ||| Registers t3.token_out) % 65536)
          else if opcode = 5 ∨ opcode = 9 then
            .ok (((instruction ||| 0x0800) % 65536 ||| (src <<< 3) % 65536) % 65536)
          else .ok ((instruction ||| src) % 65536)

/-! ## vmfplusone_skeleton.cpp: the machine state -/

/-- The table `Instruction[16]`: the mnemonic of each opcode. -/
def Instruction : List (List Char) :=
  ["nop".toList, "add".toList, "sub".toList, "mult".toList, "div".toList, "push".toList,
   "pop".toList, "mov".toList, "load".toList, "store".toList, "jmp".toList, "jnz".toList,
   "jz".toList, "jn".toList, "call".toList, "ret".toList]

/-- The table `Register[6]`: the name of each addressable register. -/
def Register : List (List Char) :=
  ["ax".toList, "bx".toList, "cx".toList, "sp".toList, "bp".toList, "ma".toList]

/-- The number of memory words, `65536/2`. -/
def MEMSIZE : Nat := 65536 / 2

def AX : Nat := 0
def BX : Nat := 1
def CX : Nat := 2
def SP : Nat := 3
def BP : Nat := 4
def MAR : Nat := 5

def CodeSegment : Nat := 0
def StackSegment : Int := 4096
def StackLimit : Int := 12 * 1024
def HEAPBASE : Int := 65535

/-- The struct `vmfplusone`. `RAM` has `MEMSIZE` cells and `REG` has 8 slots; both are
functions on the index, read and written only below those bounds. -/
structure vmfplusone where
  RAM : Nat → Int
  IR : Nat
  PC : Nat
  IDLE : Bool
  REG : Nat → Int

/-- How a member function ends: it returns, it throws an `int`, or it runs into an access
outside an array or a division by zero, for which the source defines no behaviour. -/
inductive Outcome where
  | done (s : vmfplusone)
  | thrown (code : Nat) (s : vmfplusone)
  | undefined

/-- The constructor `vmfplusone()`. `memset(RAM,0,MEMSIZE)` clears `MEMSIZE` bytes, the first
`MEMSIZE/2` cells; `rest` is what the other cells hold. `memset(REG,0,16)` clears the 8
registers. -/
def vmfplusone.construct (rest : Nat → Int) : vmfplusone where
  RAM := fun a => if a < MEMSIZE / 2 then 0 else rest a
  IR := 0
  PC := 1
  IDLE := true
  REG := Function.update (fun _ => 0) SP StackSegment

/-- The expression `REG[i]` as a read: defined for the 8 slots of the array. -/
def read_REG (s : vmfplusone) (i : Nat) : Option Int :=
  if i < 8 then some (s.REG i) else none

/-- The expression `RAM[a]` as a read, `a` an `int16_t`: defined for `0 <= a < MEMSIZE`. -/
def read_RAM (s : vmfplusone) (a : Int) : Option Int :=
  if 0 ≤ a ∧ a < MEMSIZE then some (s.RAM a.toNat) else none

/-! ## vmfplusone_skeleton.cpp: operand decoding -/

/-- The member `decode_src_8` (lines 232-240). The immediate is at most 255, so the
conversion to the return type `int16_t` leaves it as it is. -/
def decode_src_8 (s : vmfplusone) : Option Int :=
  if s.IR &&& 0x0800 ≠ 0 then read_REG s ((s.IR &&& 0x07f8) >>> 3)
  else some (((s.IR &&& 0x07f8) >>> 3 : Nat) : Int)

/-- The member `decode_src_11` (lines 242-250). The immediate is at most 2047. -/
def decode_src_11 (s : vmfplusone) : Option Int :=
  if s.IR &&& 0x0800 ≠ 0 then read_REG s ((s.IR &&& 0x07f8) >>> 3)
  else some ((s.IR &&& 0x07ff : Nat) : Int)

/-- The member `decode_dst` (line 253). -/
def decode_dst (s : vmfplusone) : Nat := s.IR % 8

/-! ## vmfplusone_skeleton.cpp: the sixteen instructions -/

def nop (s : vmfplusone) : Outcome := .done s

/-- The member `add`: `REG[dst] += src`. -/
def add (s : vmfplusone) : Outcome :=
  match decode_src_8 s with
  | none => .undefined
  | some src =>
    let dst := decode_dst s
    .done { s with REG := Function.update s.REG dst (wrap16 (s.REG dst + src)) }

/-- The member `sub`: `REG[dst] -= src`. -/
def sub (s : vmfplusone) : Outcome :=
  match decode_src_8 s with
  | none => .undefined
  | some src =>
    let dst := decode_dst s
    .done { s with REG := Function.update s.REG dst (wrap16 (s.REG dst - src)) }

/-- The member `mult`: `REG[dst] = REG[dst] * src`. -/
def mult (s : vmfplusone) : Outcome :=
  match decode_src_8 s with
  | none => .undefined
  | some src =>
    let dst := decode_dst s
    .done { s with REG := Function.update s.REG dst (wrap16 (s.REG dst * src)) }

/-- The member `div`: `temp = REG[dst]; REG[dst] = temp / src; REG[2] = temp % src`, with
the truncating `/` and `%` of C++. -/
def div (s : vmfplusone) : Outcome :=
  match decode_src_8 s with
  | none => .undefined
  | some src =>
    let dst := decode_dst s
    let temp := s.REG dst
    if src = 0 then .undefined
    else
      let s1 : vmfplusone := { s with REG := Function.update s.REG dst (wrap16 (temp.tdiv src)) }
      .done { s1 with REG := Function.update s1.REG 2 (wrap16 (temp.tmod src)) }

/-- The member `push`: `RAM[REG[SP]++] = src`. -/
def push (s : vmfplusone) : Outcome :=
  match decode_src_11 s with
  | none => .undefined
  | some src =>
    let sp := s.REG SP
    if 0 ≤ sp ∧ sp < MEMSIZE then
      .done { s with RAM := Function.update s.RAM sp.toNat src,
                     REG := Function.update s.REG SP (wrap16 (sp + 1)) }
    else .undefined

/-- The member `pop`. -/
def pop (s : vmfplusone) : Outcome :=
  let dst := decode_dst s
  if s.REG SP > StackSegment then
    let s1 : vmfplusone := { s with REG := Function.update s.REG SP (wrap16 (s.REG SP - 1)) }
    match read_RAM s1 (s1.REG SP) with
    | none => .undefined
    | some v => .done { s1 with REG := Function.update s1.REG dst v }
  else .thrown 2 s

/-- The member `mov`: `uint16_t src = decode_src_8(); REG[dst] = src`. -/
def mov (s : vmfplusone) : Outcome :=
  let dst := decode_dst s
  match decode_src_8 s with
  | none => .undefined
  | some v =>
    let src := to_u16 v
    .done { s with REG := Function.update s.REG dst (wrap16 src) }

/-- The member `load`. -/
def load (s : vmfplusone) : Outcome :=
  let dst := decode_dst s
  if s.REG MAR < StackSegment then .thrown 2 s
  else
    match read_RAM s (s.REG MAR) with
    | none => .undefined
    | some v => .done { s with REG := Function.update s.REG dst v }

/-- The member `store`: `uint16_t src = decode_src_11(); RAM[REG[MAR]] = src`. -/
def store (s : vmfplusone) : Outcome :=
  match decode_src_11 s with
  | none => .undefined
  | some v =>
    let src := to_u16 v
    let ma := s.REG MAR
    if 0 ≤ ma ∧ ma < MEMSIZE then
      .done { s with RAM := Function.update s.RAM ma.toNat (wrap16 src) }
    else .undefined

/-- The member `jmp`: `uint16_t src = decode_src_11();` then, under `src > 0 || src < 4095`,
`src--; PC = src`, else `throw 5`. -/
def jmp (s : vmfplusone) : Outcome :=
  match decode_src_11 s with
  | none => .undefined
  | some v =>
    let src := to_u16 v
    if src > 0 ∨ src < 4095 then .done { s with PC := (src + 65535) % 65536 }
    else .thrown 5 s

/-- The member `jnz`. -/
def jnz (s : vmfplusone) : Outcome :=
  if s.REG CX ≠ 0 then jmp s else .done s

/-- The member `jz`. -/
def jz (s : vmfplusone) : Outcome :=
  if s.REG CX = 0 then jmp s else .done s

/-- The member `jn`. Its first statement, `uint16_t src = decode_src_11();`, fills a local
that is never read: the value is discarded, the statement leaves the machine as it is and
is left out. -/
def jn (s : vmfplusone) : Outcome :=
  if s.REG CX < 0 then jmp s else .done s

/-- The member `call`: under `REG[SP]-1 >= StackSegment`, `RAM[REG[SP]++] = PC; jmp();`,
else `throw 2`. -/
def call (s : vmfplusone) : Outcome :=
  if s.REG SP - 1 ≥ StackSegment then
    let sp := s.REG SP
    if 0 ≤ sp ∧ sp < MEMSIZE then
      jmp { s with RAM := Function.update s.RAM sp.toNat (wrap16 s.PC),
                   REG := Function.update s.REG SP (wrap16 (sp + 1)) }
    else .undefined
  else .thrown 2 s

/-- The member `ret`: under `REG[SP]-1 >= StackSegment`, `PC = RAM[--REG[SP]]`, else
`throw 2`. -/
def ret (s : vmfplusone) : Outcome :=
  if s.REG SP - 1 ≥ StackSegment then
    let s1 : vmfplusone := { s with REG := Function.update s.REG SP (wrap16 (s.REG SP - 1)) }
    match read_RAM s1 (s1.REG SP) with
    | none => .undefined
    | some v => .done { s1 with PC := to_u16 v }
  else .thrown 2 s

/-- The dispatch vector `ops` of `execute_instruction`. -/
def ops : Nat → vmfplusone → Outcome
  | 0 => nop
  | 1 => add
  | 2 => sub
  | 3 => mult
  | 4 => div
  | 5 => push
  | 6 => pop
  | 7 => mov
  | 8 => load
  | 9 => store
  | 10 => jmp
  | 11 => jnz
  | 12 => jz
  | 13 => jn
  | 14 => call
  | 15 => ret
  | _ => fun _ => .undefined

/-- The member `execute_instruction` (lines 276-301): fetch `IR = RAM[CodeSegment+PC]`,
dispatch on `IR >> 12`, then `PC++`. A throw leaves the member before `PC++`. -/
def execute_instruction (s : vmfplusone) : Outcome :=
  if CodeSegment + s.PC < MEMSIZE then
    let s1 : vmfplusone := { s with IR := to_u16 (s.RAM (CodeSegment + s.PC)) }
    let opcode := s1.IR >>> 12
    match ops opcode s1 with
    | .done s2 => .done { s2 with PC := (s2.PC + 1) % 65536 }
    | .thrown code s2 => .thrown code s2
    | .undefined => .undefined
  else .undefined

/-- The member `load_instruction`: `RAM[PC++] = inst`. -/
def load_instruction (s : vmfplusone) (inst : Nat) : Outcome :=
  if s.PC < MEMSIZE then
    .done { s with RAM := Function.update s.RAM s.PC (wrap16 inst), PC := (s.PC + 1) % 65536 }
  else .undefined

/-! ## Vocabulary of the statements -/

/-- The value a string of decimal digits denotes (most significant digit first). -/
def lit_value (ds : List Char) : Nat := ds.foldl (fun a c => a * 10 + (c.toNat - 48)) 0

/-- A decimal literal: a non-empty string of the characters `0` to `9`. -/
def is_literal (ds : List Char) : Prop := ds ≠ [] ∧ ∀ c ∈ ds, 48 ≤ c.toNat ∧ c.toNat ≤ 57

/-- A symbol: a non-empty string of characters of type 3, 4 or 5. -/
def is_symbol (sym : List Char) : Prop := sym ≠ [] ∧ ∀ c ∈ sym, char_type c > 2

/-- The accumulator of the digit loop after the digits `ds`, started at `a`. -/
def digits_from (a : Int) (ds : List Char) : Int :=
  ds.foldl (fun a c => wrap32 (a * 10 + ((c.toNat : Int) - 48))) a

/-- The digit loop without the 32-bit reduction. -/
def digits_exact (a : Int) (ds : List Char) : Int :=
  ds.foldl (fun a c => a * 10 + ((c.toNat : Int) - 48)) a

/-- The line made of a mnemonic and one operand, separated by one space. -/
def line1 (op a : List Char) : List Char := op ++ ' ' :: a

/-- The line made of a mnemonic and two operands, separated by single spaces. -/
def line2 (op a b : List Char) : List Char := op ++ ' ' :: (a ++ ' ' :: b)

/-- The two-operand class: the mnemonics with `opcode<5 || opcode==7` that take operands. -/
def two_operand : List (List Char) :=
  ["add".toList, "sub".toList, "mult".toList, "div".toList, "mov".toList]

/-- The class with an 11-bit operand: `opcode==5 || opcode==9`. -/
def eleven_bit : List (List Char) := ["push".toList, "store".toList]

/-- The remaining mnemonics that take an operand (12-bit operand). -/
def twelve_bit : List (List Char) :=
  ["pop".toList, "load".toList, "jmp".toList, "jnz".toList, "jz".toList, "jn".toList,
   "call".toList]

/-- The six register names. -/
def register_names : List (List Char) :=
  ["ax".toList, "bx".toList, "cx".toList, "sp".toList, "bp".toList, "ma".toList]

instance (s : List Char) : Decidable (is_symbol s) := by unfold is_symbol; infer_instance

instance (s : List Char) : Decidable (is_literal s) := by unfold is_literal; infer_instance

/-- The machine as constructed, with the word `w` loaded at address 1 and `PC = 1`. -/
def one_instruction (w : Nat) : vmfplusone :=
  { vmfplusone.construct (fun _ => 0) with
    RAM := Function.update (vmfplusone.construct (fun _ => 0)).RAM 1 (wrap16 w) }

/-- The machine as constructed, with the words `w1`, `w2` loaded at addresses 1 and 2 and
`PC = 1`. -/
def two_instructions (w1 w2 : Nat) : vmfplusone :=
  { vmfplusone.construct (fun _ => 0) with
    RAM := Function.update (Function.update (vmfplusone.construct (fun _ => 0)).RAM
      1 (wrap16 w1)) 2 (wrap16 w2) }

/-- An ALU instruction on the machine `m` ended in `out`: it returned, the destination
register holds `value` reduced to a signed 16-bit integer (the 16-bit value congruent to
`value` modulo `2^16`), and no other register and no memory cell changed. -/
def alu_result (m : vmfplusone) (out : Outcome) (value : Int) : Prop :=
  ∃ m', out = .done m' ∧
    -32768 ≤ m'.REG (decode_dst m) ∧ m'.REG (decode_dst m) ≤ 32767 ∧
    (m'.REG (decode_dst m) - value) % 65536 = 0 ∧
    (∀ i, i ≠ decode_dst m → m'.REG i = m.REG i) ∧ m'.RAM = m.RAM

/-- The machine as constructed, with `ax = a` and the word `w` in the instruction
register. -/
def with_ax (a : Int) (w : Nat) : vmfplusone :=
  { vmfplusone.construct (fun _ => 0) with
    IR := w, REG := Function.update (vmfplusone.construct (fun _ => 0)).REG AX a }

/-- The machine as constructed, with `REG[i] = v` and the word `w` in the instruction
register. -/
def with_reg (i : Nat) (v : Int) (w : Nat) : vmfplusone :=
  { vmfplusone.construct (fun _ => 0) with
    IR := w, REG := Function.update (vmfplusone.construct (fun _ => 0)).REG i v }

/-- The loop of `main` that loads a program: `load_instruction` on each word in turn. -/
def load_program : List Nat → vmfplusone → Outcome
  | [], s => .done s
  | w :: ws, s =>
    match load_instruction s w with
    | .done s1 => load_program ws s1
    | .thrown code s1 => .thrown code s1
    | .undefined => .undefined

/-- The loop `while (PC<limit) execute_instruction();` of `run`, cut after `rounds` rounds.
The trace output is not modelled. -/
def run_loop : Nat → vmfplusone → Nat → Outcome
  | 0, s, _ => .done s
  | rounds + 1, s, limit =>
    if s.PC < limit then
      match execute_instruction s with
      | .done s1 => run_loop rounds s1 limit
      | .thrown code s1 => .thrown code s1
      | .undefined => .undefined
    else .done s

/-- The member `run` (lines 315-324), cut after `rounds` rounds of its loop. -/
def run (rounds : Nat) (s : vmfplusone) (start limit : Nat) : Outcome :=
  run_loop rounds { s with PC := start } limit

/-- What `main` does with the assembled words `ws`: load them into the machine as
constructed and, if any was loaded, `run` from the first address to the address after the
last word. The run is cut after `rounds` rounds. -/
def run_program (ws : List Nat) (rounds : Nat) : Outcome :=
  let startpc := (vmfplusone.construct (fun _ => 0)).PC
  match load_program ws (vmfplusone.construct (fun _ => 0)) with
  | .done s => if s.PC > startpc then run rounds s startpc s.PC else .done s
  | .thrown code s => .thrown code s
  | .undefined => .undefined

/-- The register index that `decode_src_8` and `decode_src_11` read from the word in `IR`:
`(IR & 0x07f8) >> 3` when the flag `IR & 0x0800` is set, none when it is clear (the source
operand is then an immediate). -/
def src_register (s : vmfplusone) : Option Nat :=
  if s.IR &&& 0x0800 ≠ 0 then some ((s.IR &&& 0x07f8) >>> 3) else none

/-- The machine after the fetch of `execute_instruction`: `IR = RAM[CodeSegment+PC]`. -/
def fetched (s : vmfplusone) : vmfplusone :=
  { s with IR := to_u16 (s.RAM (CodeSegment + s.PC)) }

/-- What `execute_instruction` makes of the outcome of the dispatched member: `PC++` after
a return, nothing after a throw. -/
def then_increment : Outcome → Outcome
  | .done s => .done { s with PC := (s.PC + 1) % 65536 }
  | .thrown code s => .thrown code s
  | .undefined => .undefined

/-! ## The lexer's loops -/

theorem char_type_digit {c : Char} (h : 48 ≤ c.toNat ∧ c.toNat ≤ 57) : char_type c = 2 := by
  have h0 : c.toNat ≠ 0 := by omega
  have h1 : c ≠ ' ' := by rintro rfl; revert h; decide
  have h2 : c ≠ '\t' := by rintro rfl; revert h; decide
  have h3 : c ≠ '\n' := by rintro rfl; revert h; decide
  have h4 : c.toNat > 47 ∧ c.toNat < 58 := by omega
  simp [char_type, h0, h1, h2, h3, h4]

theorem skip_white_append (ws rest : List Char) (i : Nat)
    (hws : ∀ c ∈ ws, char_type c = 1) (hrest : ∀ c ∈ rest.head?, char_type c ≠ 1) :
    skip_white (ws ++ rest) i = i + ws.length := by
  induction ws generalizing i with
  | nil =>
    cases rest with
    | nil => simp [skip_white]
    | cons c cs =>
      have := hrest c (by simp)
      simp [skip_white, this]
  | cons w ws ih =>
    have hw := hws w (by simp)
    have := ih (i + 1) (fun c hc => hws c (by simp [hc]))
    simp [skip_white, hw, this]; omega

theorem symbol_loop_append (sym rest : List Char) (i : Nat) (tok : List Char) (a : Int)
    (hsym : ∀ c ∈ sym, char_type c > 2) (hrest : ∀ c ∈ rest.head?, ¬ char_type c > 2) :
    symbol_loop (sym ++ rest) i tok a = (i + sym.length, tok ++ sym, a + sym.length) := by
  induction sym generalizing i tok a with
  | nil =>
    cases rest with
    | nil => simp [symbol_loop]
    | cons c cs =>
      have := hrest c (by simp)
      simp [symbol_loop, this]
  | cons w ws ih =>
    have hw := hsym w (by simp)
    have := ih (i + 1) (tok ++ [w]) (a + 1) (fun c hc => hsym c (by simp [hc]))
    simp [symbol_loop, hw, this]; omega

theorem digit_loop_append (ds rest : List Char) (i : Nat) (a : Int)
    (hds : ∀ c ∈ ds, char_type c = 2) (hrest : ∀ c ∈ rest.head?, char_type c ≠ 2) :
    digit_loop (ds ++ rest) i a = (i + ds.length, digits_from a ds) := by
  induction ds generalizing i a with
  | nil =>
    cases rest with
    | nil => simp [digit_loop, digits_from]
    | cons c cs =>
      have := hrest c (by simp)
      simp [digit_loop, digits_from, this]
  | cons w ws ih =>
    have hw := hds w (by simp)
    have := ih (i + 1) (wrap32 (a * 10 + ((w.toNat : Int) - 48))) (fun c hc => hds c (by simp [hc]))
    simp [digit_loop, digits_from, hw, this] at *; omega

theorem wrap32_of_range {x : Int} (h1 : -2147483648 ≤ x) (h2 : x < 2147483648) : wrap32 x = x := by
  unfold wrap32; omega

theorem wrap32_wrap32_step (x d : Int) : wrap32 (wrap32 x * 10 + d) = wrap32 (x * 10 + d) := by
  unfold wrap32; omega

theorem digits_from_wrap32 (ds : List Char) (x : Int) :
    digits_from (wrap32 x) ds = wrap32 (digits_exact x ds) := by
  induction ds generalizing x with
  | nil => simp [digits_from, digits_exact]
  | cons c cs ih =>
    have := ih (x * 10 + ((c.toNat : Int) - 48))
    simp only [digits_from, digits_exact, List.foldl_cons] at this ⊢
    rw [wrap32_wrap32_step]; exact this

theorem digits_exact_cast (ds : List Char) (a : Nat) (hds : ∀ c ∈ ds, 48 ≤ c.toNat ∧ c.toNat ≤ 57) :
    digits_exact (a : Int) ds = ((ds.foldl (fun a c => a * 10 + (c.toNat - 48)) a : Nat) : Int) := by
  induction ds generalizing a with
  | nil => simp [digits_exact]
  | cons c cs ih =>
    have hc := hds c (by simp)
    have := ih (a * 10 + (c.toNat - 48)) (fun d hd => hds d (by simp [hd]))
    simp only [digits_exact, List.foldl_cons] at this ⊢
    rw [← this]; congr 1; omega

theorem digits_from_zero (ds : List Char) (hds : ∀ c ∈ ds, 48 ≤ c.toNat ∧ c.toNat ≤ 57) :
    digits_from 0 ds = wrap32 (lit_value ds) := by
  have h := digits_from_wrap32 ds 0
  have h0 : wrap32 0 = 0 := by decide
  rw [h0] at h
  rw [h]
  have := digits_exact_cast ds 0 hds
  simp only [Nat.cast_zero] at this
  rw [this]; rfl

theorem drop_add_of_drop_eq (input : List Char) {p : Nat} {a b : List Char}
    (h : input.drop p = a ++ b) : input.drop (p + a.length) = b := by
  have : input.drop (p + a.length) = (input.drop p).drop a.length := by
    rw [List.drop_drop]
  rw [this, h]; simp

theorem char_type_pos_of_symbol {c : Char} (h : char_type c > 2) : c.toNat ≠ 0 := by
  intro h0
  simp [char_type, h0] at h

/-- The function `next_token` on white space followed by a symbol. -/
theorem next_token_symbol {input : List Char} {position : Nat} (buf : List Char)
    {ws sym rest : List Char} (h : input.drop position = ws ++ (sym ++ rest))
    (hws : ∀ c ∈ ws, char_type c = 1) (hsym : is_symbol sym)
    (hrest : ∀ c ∈ rest.head?, ¬ char_type c > 2) :
    next_token input position buf
      = ⟨(sym.length : Int), position + ws.length + sym.length, sym⟩ := by
  obtain ⟨hne, hs⟩ := hsym
  obtain ⟨c, cs, rfl⟩ := List.exists_cons_of_ne_nil hne
  have hc := hs c (by simp)
  have hskip : skip_white (input.drop position) position = position + ws.length := by
    rw [h]; apply skip_white_append _ _ _ hws
    intro d hd; simp at hd; subst hd; omega
  have hdrop := drop_add_of_drop_eq input h
  have hloop := symbol_loop_append (c :: cs) rest (position + ws.length) [] 0 hs hrest
  have hc0 := char_type_pos_of_symbol hc
  simp only [next_token, hskip, hdrop, hloop]
  simp [hc0]

/-- The function `next_token` on white space followed by a decimal literal. -/
theorem next_token_literal {input : List Char} {position : Nat} (buf : List Char)
    {ws ds rest : List Char} (h : input.drop position = ws ++ (ds ++ rest))
    (hws : ∀ c ∈ ws, char_type c = 1) (hds : is_literal ds)
    (hrest : ∀ c ∈ rest.head?, char_type c ≠ 2 ∧ ¬ char_type c > 2) :
    next_token input position buf
      = ⟨wrap32 (lit_value ds), position + ws.length + ds.length, []⟩ := by
  obtain ⟨hne, hd⟩ := hds
  obtain ⟨c, cs, rfl⟩ := List.exists_cons_of_ne_nil hne
  have hc := char_type_digit (hd c (by simp))
  have hskip : skip_white (input.drop position) position = position + ws.length := by
    rw [h]; apply skip_white_append _ _ _ hws
    intro d hd; simp at hd; subst hd; omega
  have hdrop := drop_add_of_drop_eq input h
  have hsym := symbol_loop_append [] (c :: cs ++ rest) (position + ws.length) [] 0
    (by simp) (by intro d hd; simp at hd; subst hd; omega)
  have hdig := digit_loop_append (c :: cs) rest (position + ws.length) 0
    (fun d hd' => char_type_digit (hd d hd')) (fun d hd' => (hrest d hd').1)
  have hc0 : c.toNat ≠ 0 := by have := hd c (by simp); omega
  simp only [List.nil_append, List.length_nil, Nat.add_zero, Nat.cast_zero, Int.add_zero] at hsym
  simp only [next_token, hskip, hdrop, hsym, hdig, digits_from_zero _ hd]
  simp [hc0]

/-- The function `next_token` when only white space is left: -1, buffer untouched. -/
theorem next_token_end {input : List Char} {position : Nat} (buf : List Char)
    {ws : List Char} (h : input.drop position = ws) (hws : ∀ c ∈ ws, char_type c = 1) :
    next_token input position buf = ⟨-1, position + ws.length, buf⟩ := by
  have hskip : skip_white (input.drop position) position = position + ws.length := by
    have := skip_white_append ws [] position hws (by simp)
    rw [h]; simpa using this
  have hdrop : input.drop (position + ws.length) = [] := by
    have := drop_add_of_drop_eq input (a := ws) (b := []) (by simpa using h)
    exact this
  simp only [next_token, hskip, hdrop]

/-! ## Reading `assemble` on the shapes of a line -/

theorem char_type_space : char_type ' ' = 1 := by decide

/-- The function `assemble` on `op n r`: a symbol, a decimal literal and a symbol. -/
theorem assemble_imm_reg (operation op ds r : List Char)
    (hop : is_symbol op) (hds : is_literal ds) (hr : is_symbol r) :
    assemble operation (line2 op ds r) =
      if Opcodes op = 0 ∨ Opcodes op = 15 then .ok ((Opcodes op <<< 12) % 65536)
      else if Opcodes op < 5 ∨ Opcodes op = 7 then
        if wrap32 (lit_value ds) ≥ 256 then .error 5
        else if (r.length : Int) ≠ 2 then .error 5
        else .ok (((((Opcodes op <<< 12) % 65536) |||
          (bits32 (wrap32 (lit_value ds)) <<< 3)) % 65536 ||| Registers r) % 65536)
      else if Opcodes op = 5 ∨ Opcodes op = 9 then
        if wrap32 (lit_value ds) ≥ 2048 then .error 5
        else .ok ((((Opcodes op <<< 12) % 65536) ||| bits32 (wrap32 (lit_value ds))) % 65536)
      else
        if wrap32 (lit_value ds) ≥ 4096 then .error 5
        else .ok ((((Opcodes op <<< 12) % 65536) ||| bits32 (wrap32 (lit_value ds))) % 65536) := by
  have d1 : (line2 op ds r).drop 0 = [] ++ (op ++ ' ' :: (ds ++ ' ' :: r)) := by simp [line2]
  have h1 := next_token_symbol operation d1 (by simp) hop
    (by intro c hc; simp at hc; subst hc; simp [char_type_space])
  have d2 : (line2 op ds r).drop (0 + ([] : List Char).length + op.length)
      = [' '] ++ (ds ++ ' ' :: r) := by
    have := drop_add_of_drop_eq (line2 op ds r) (a := op) (b := ' ' :: (ds ++ ' ' :: r)) (p := 0)
      (by simp [line2])
    simpa using this
  have h2 := next_token_literal op d2 (by simp [char_type_space]) hds
    (by intro c hc; simp at hc; subst hc; simp [char_type_space])
  have d3 : (line2 op ds r).drop (0 + ([] : List Char).length + op.length
      + [' '].length + ds.length) = [' '] ++ (r ++ []) := by
    have e : (line2 op ds r).drop (0 + ([] : List Char).length + op.length)
        = (' ' :: ds) ++ (' ' :: r) := by rw [d2]; simp
    have := drop_add_of_drop_eq _ e
    simpa [Nat.add_assoc, Nat.add_comm 1] using this
  have h3 := next_token_symbol ([] : List Char) d3 (by simp [char_type_space]) hr (by simp)
  simp only [assemble, h1, h2, h3, if_neg hop.1, if_true, reduceIte, hr.1, false_or]

/-- The function `assemble` on `op n`: a symbol and a decimal literal. -/
theorem assemble_imm (operation op ds : List Char) (hop : is_symbol op) (hds : is_literal ds) :
    assemble operation (line1 op ds) =
      if Opcodes op = 0 ∨ Opcodes op = 15 then .ok ((Opcodes op <<< 12) % 65536)
      else if Opcodes op < 5 ∨ Opcodes op = 7 then .error 5
      else if Opcodes op = 5 ∨ Opcodes op = 9 then
        if wrap32 (lit_value ds) ≥ 2048 then .error 5
        else .ok ((((Opcodes op <<< 12) % 65536) ||| bits32 (wrap32 (lit_value ds))) % 65536)
      else
        if wrap32 (lit_value ds) ≥ 4096 then .error 5
        else .ok ((((Opcodes op <<< 12) % 65536) ||| bits32 (wrap32 (lit_value ds))) % 65536) := by
  have d1 : (line1 op ds).drop 0 = [] ++ (op ++ ' ' :: (ds ++ [])) := by simp [line1]
  have h1 := next_token_symbol operation d1 (by simp) hop
    (by intro c hc; simp at hc; subst hc; simp [char_type_space])
  have d2 : (line1 op ds).drop (0 + ([] : List Char).length + op.length)
      = [' '] ++ (ds ++ []) := by
    have := drop_add_of_drop_eq (line1 op ds) (a := op) (b := ' ' :: ds) (p := 0)
      (by simp [line1])
    simpa using this
  have h2 := next_token_literal op d2 (by simp [char_type_space]) hds (by simp)
  have d3 : (line1 op ds).drop (0 + ([] : List Char).length + op.length
      + [' '].length + ds.length) = [] := by
    have e : (line1 op ds).drop (0 + ([] : List Char).length + op.length)
        = (' ' :: ds) ++ [] := by rw [d2]; simp
    have := drop_add_of_drop_eq _ e
    simpa [Nat.add_assoc, Nat.add_comm 1] using this
  have h3 := next_token_end ([] : List Char) d3 (by simp)
  simp only [assemble, h1, h2, h3, if_neg hop.1, if_true, reduceIte, true_or]
  split_ifs <;> rfl

/-- The function `assemble` on `op s r`: three symbols. -/
theorem assemble_reg_reg (operation op s r : List Char)
    (hop : is_symbol op) (hs : is_symbol s) (hr : is_symbol r) :
    assemble operation (line2 op s r) =
      if Opcodes op = 0 ∨ Opcodes op = 15 then .ok ((Opcodes op <<< 12) % 65536)
      else if (s.length : Int) ≠ 2 then .error 5
      else if Opcodes op < 5 ∨ Opcodes op = 7 then
        if (r.length : Int) ≠ 2 then .error 5
        else .ok (((((Opcodes op <<< 12) % 65536) ||| 0x0800 ||| (Registers s <<< 3)) % 65536
          ||| Registers r) % 65536)
      else if Opcodes op = 5 ∨ Opcodes op = 9 then
        .ok (((((Opcodes op <<< 12) % 65536) ||| 0x0800) % 65536
          ||| (Registers s <<< 3) % 65536) % 65536)
      else .ok ((((Opcodes op <<< 12) % 65536) ||| Registers s) % 65536) := by
  have d1 : (line2 op s r).drop 0 = [] ++ (op ++ ' ' :: (s ++ ' ' :: r)) := by simp [line2]
  have h1 := next_token_symbol operation d1 (by simp) hop
    (by intro c hc; simp at hc; subst hc; simp [char_type_space])
  have d2 : (line2 op s r).drop (0 + ([] : List Char).length + op.length)
      = [' '] ++ (s ++ ' ' :: r) := by
    have := drop_add_of_drop_eq (line2 op s r) (a := op) (b := ' ' :: (s ++ ' ' :: r)) (p := 0)
      (by simp [line2])
    simpa using this
  have h2 := next_token_symbol op d2 (by simp [char_type_space]) hs
    (by intro c hc; simp at hc; subst hc; simp [char_type_space])
  have d3 : (line2 op s r).drop (0 + ([] : List Char).length + op.length
      + [' '].length + s.length) = [' '] ++ (r ++ []) := by
    have e : (line2 op s r).drop (0 + ([] : List Char).length + op.length)
        = (' ' :: s) ++ (' ' :: r) := by rw [d2]; simp
    have := drop_add_of_drop_eq _ e
    simpa [Nat.add_assoc, Nat.add_comm 1] using this
  have h3 := next_token_symbol s d3 (by simp [char_type_space]) hr (by simp)
  simp only [assemble, h1, h2, h3, if_neg hop.1, if_true, reduceIte, hr.1, hs.1, false_or]

/-- The function `assemble` on `op s`: two symbols. -/
theorem assemble_reg (operation op s : List Char) (hop : is_symbol op) (hs : is_symbol s) :
    assemble operation (line1 op s) =
      if Opcodes op = 0 ∨ Opcodes op = 15 then .ok ((Opcodes op <<< 12) % 65536)
      else if (s.length : Int) ≠ 2 then .error 5
      else if Opcodes op < 5 ∨ Opcodes op = 7 then .error 5
      else if Opcodes op = 5 ∨ Opcodes op = 9 then
        .ok (((((Opcodes op <<< 12) % 65536) ||| 0x0800) % 65536
          ||| (Registers s <<< 3) % 65536) % 65536)
      else .ok ((((Opcodes op <<< 12) % 65536) ||| Registers s) % 65536) := by
  have d1 : (line1 op s).drop 0 = [] ++ (op ++ ' ' :: (s ++ [])) := by simp [line1]
  have h1 := next_token_symbol operation d1 (by simp) hop
    (by intro c hc; simp at hc; subst hc; simp [char_type_space])
  have d2 : (line1 op s).drop (0 + ([] : List Char).length + op.length)
      = [' '] ++ (s ++ []) := by
    have := drop_add_of_drop_eq (line1 op s) (a := op) (b := ' ' :: s) (p := 0)
      (by simp [line1])
    simpa using this
  have h2 := next_token_symbol op d2 (by simp [char_type_space]) hs (by simp)
  have d3 : (line1 op s).drop (0 + ([] : List Char).length + op.length
      + [' '].length + s.length) = [] := by
    have e : (line1 op s).drop (0 + ([] : List Char).length + op.length)
        = (' ' :: s) ++ [] := by rw [d2]; simp
    have := drop_add_of_drop_eq _ e
    simpa [Nat.add_assoc, Nat.add_comm 1] using this
  have h3 := next_token_end s d3 (by simp)
  simp only [assemble, h1, h2, h3, if_neg hop.1, if_true, reduceIte, hs.1, false_or]
  split_ifs <;> first | rfl | (exfalso; omega)

/-! ## The mnemonic classes -/

theorem two_operand_facts : ∀ op ∈ two_operand,
    is_symbol op ∧ ¬ (Opcodes op = 0 ∨ Opcodes op = 15) ∧ (Opcodes op < 5 ∨ Opcodes op = 7)
      ∧ Opcodes op < 16 := by decide

theorem eleven_bit_facts : ∀ op ∈ eleven_bit,
    is_symbol op ∧ ¬ (Opcodes op = 0 ∨ Opcodes op = 15) ∧ ¬ (Opcodes op < 5 ∨ Opcodes op = 7)
      ∧ (Opcodes op = 5 ∨ Opcodes op = 9) ∧ Opcodes op < 16 := by decide

theorem twelve_bit_facts : ∀ op ∈ twelve_bit,
    is_symbol op ∧ ¬ (Opcodes op = 0 ∨ Opcodes op = 15) ∧ ¬ (Opcodes op < 5 ∨ Opcodes op = 7)
      ∧ ¬ (Opcodes op = 5 ∨ Opcodes op = 9) ∧ Opcodes op < 16 := by decide

theorem register_facts : ∀ r ∈ register_names,
    is_symbol r ∧ r.length = 2 ∧ Registers r < 6 := by decide

/-! ## Arithmetic of the instruction word -/

theorem shl12_lt {opc : Nat} (h : opc < 16) : opc <<< 12 < 65536 := by
  rw [Nat.shiftLeft_eq]; omega

theorem or_mod_u16 {a b : Nat} (ha : a < 65536) (hb : b < 65536) :
    (a ||| b) % 65536 = a ||| b :=
  Nat.mod_eq_of_lt (Nat.or_lt_two_pow (n := 16) ha hb)

theorem or_lt_u16 {a b : Nat} (ha : a < 65536) (hb : b < 65536) : a ||| b < 65536 :=
  Nat.or_lt_two_pow (n := 16) ha hb

theorem wrap32_nat {n : Nat} (h : n < 2147483648) : wrap32 (n : Int) = n := by
  unfold wrap32; omega

theorem bits32_nat {n : Nat} (h : n < 2147483648) : bits32 (wrap32 (n : Int)) = n := by
  rw [wrap32_nat h]; unfold bits32; omega

/-- The word of a two-operand instruction with an immediate source. -/
theorem word_imm_reg {opc n idx : Nat} (ho : opc < 16) (hn : n < 256) (hi : idx < 8) :
    ((((opc <<< 12) % 65536) ||| (bits32 (wrap32 (n : Int)) <<< 3)) % 65536 ||| idx) % 65536
      = (opc <<< 12) ||| (n <<< 3) ||| idx := by
  have h1 := shl12_lt ho
  have h2 : n <<< 3 < 65536 := by rw [Nat.shiftLeft_eq]; omega
  rw [bits32_nat (by omega), Nat.mod_eq_of_lt h1, or_mod_u16 h1 h2,
    or_mod_u16 (or_lt_u16 h1 h2) (by omega)]

/-- The word of a one-operand instruction with an immediate operand. -/
theorem word_imm {opc n : Nat} (ho : opc < 16) (hn : n < 4096) :
    (((opc <<< 12) % 65536) ||| bits32 (wrap32 (n : Int))) % 65536 = (opc <<< 12) ||| n := by
  have h1 := shl12_lt ho
  rw [bits32_nat (by omega), Nat.mod_eq_of_lt h1, or_mod_u16 h1 (by omega)]

/-! ## C1, C2: immediate operands at the class limits -/

/-- C1 (as amended): for every two-operand mnemonic `op` (add, sub, mult, div, mov), every
decimal literal of value `n` and every register name `r`, `assemble` on the line `op n r`
returns `(opcode(op) << 12) | (n << 3) | index(r)` when `n <= 255`, and throws 5
(InvalidOperand) when `256 <= n < 2^31`, the range in which the `int` accumulator of the
lexer holds the literal. -/
theorem assemble_two_operand_immediate (operation op ds r : List Char)
    (hop : op ∈ two_operand) (hds : is_literal ds) (hr : r ∈ register_names) :
    (lit_value ds ≤ 255 → assemble operation (line2 op ds r)
        = .ok ((Opcodes op <<< 12) ||| (lit_value ds <<< 3) ||| Registers r)) ∧
    (256 ≤ lit_value ds → lit_value ds < 2147483648 →
        assemble operation (line2 op ds r) = .error 5) := by
  obtain ⟨hsym, h015, hcls, hlt⟩ := two_operand_facts op hop
  obtain ⟨hrsym, hrlen, hridx⟩ := register_facts r hr
  rw [assemble_imm_reg operation op ds r hsym hds hrsym]
  simp only [if_neg h015, if_pos hcls]
  constructor
  · intro hn
    have hw : ¬ wrap32 (lit_value ds : Int) ≥ 256 := by rw [wrap32_nat (by omega)]; omega
    have hl : ¬ ((r.length : Int) ≠ 2) := by rw [hrlen]; simp
    rw [if_neg hw, if_neg hl, word_imm_reg hlt (by omega) (by omega)]
  · intro hn hb
    have hw : wrap32 (lit_value ds : Int) ≥ 256 := by rw [wrap32_nat hb]; omega
    rw [if_pos hw]

/-- Witness of C1 (as amended): `add 255 ax` assembles to `0x17f8`, `add 256 ax` throws 5. -/
theorem assemble_two_operand_immediate_witness :
    assemble [] "add 255 ax".toList = .ok 0x17f8 ∧
    assemble [] "add 256 ax".toList = .error 5 :=
  ⟨(assemble_two_operand_immediate [] "add".toList "255".toList "ax".toList
      (by decide) (by decide) (by decide)).1 (by decide),
   (assemble_two_operand_immediate [] "add".toList "256".toList "ax".toList
      (by decide) (by decide) (by decide)).2 (by decide) (by decide)⟩

/-- C1 as stated fails: the literal 4294967296 is at least 256, yet `add 4294967296 ax`
does not throw: the 32-bit accumulator of `next_token` holds 0 after the last digit and
the line assembles to the word of `add 0 ax`. -/
theorem assemble_two_operand_immediate_overflow :
    "add".toList ∈ two_operand ∧ is_literal "4294967296".toList ∧
    "ax".toList ∈ register_names ∧ 256 ≤ lit_value "4294967296".toList ∧
    assemble [] (line2 "add".toList "4294967296".toList "ax".toList) = .ok 0x1000 ∧
    assemble [] (line2 "add".toList "4294967296".toList "ax".toList) ≠ .error 5 := by
  refine ⟨by decide, by decide, by decide, by decide, by rfl, ?_⟩
  have h : assemble [] (line2 "add".toList "4294967296".toList "ax".toList) = .ok 0x1000 := by
    rfl
  rw [h]; simp

/-- C2 (as amended): for every one-operand mnemonic `op` and every decimal literal of value
`n < 2^31`, `assemble` on the line `op n` returns `(opcode(op) << 12) | n` when `n` is below
the class limit and throws 5 (InvalidOperand) otherwise; the limit is 2048 for push and
store and 4096 for pop, load, jmp, jnz, jz, jn and call. -/
theorem assemble_one_operand_immediate (operation op ds : List Char) (hds : is_literal ds)
    (hb : lit_value ds < 2147483648) :
    (op ∈ eleven_bit →
      (lit_value ds < 2048 →
        assemble operation (line1 op ds) = .ok ((Opcodes op <<< 12) ||| lit_value ds)) ∧
      (2048 ≤ lit_value ds → assemble operation (line1 op ds) = .error 5)) ∧
    (op ∈ twelve_bit →
      (lit_value ds < 4096 →
        assemble operation (line1 op ds) = .ok ((Opcodes op <<< 12) ||| lit_value ds)) ∧
      (4096 ≤ lit_value ds → assemble operation (line1 op ds) = .error 5)) := by
  constructor
  · intro hop
    obtain ⟨hsym, h015, hcls, h59, hlt⟩ := eleven_bit_facts op hop
    rw [assemble_imm operation op ds hsym hds]
    simp only [if_neg h015, if_neg hcls, if_pos h59]
    constructor
    · intro hn
      have hw : ¬ wrap32 (lit_value ds : Int) ≥ 2048 := by rw [wrap32_nat hb]; omega
      rw [if_neg hw, word_imm hlt (by omega)]
    · intro hn
      have hw : wrap32 (lit_value ds : Int) ≥ 2048 := by rw [wrap32_nat hb]; omega
      rw [if_pos hw]
  · intro hop
    obtain ⟨hsym, h015, hcls, h59, hlt⟩ := twelve_bit_facts op hop
    rw [assemble_imm operation op ds hsym hds]
    simp only [if_neg h015, if_neg hcls, if_neg h59]
    constructor
    · intro hn
      have hw : ¬ wrap32 (lit_value ds : Int) ≥ 4096 := by rw [wrap32_nat hb]; omega
      rw [if_neg hw, word_imm hlt (by omega)]
    · intro hn
      have hw : wrap32 (lit_value ds : Int) ≥ 4096 := by rw [wrap32_nat hb]; omega
      rw [if_pos hw]

/-- Witness of C2 (as amended): the limits 2047/2048 of `push` and 4095/4096 of `jmp`. -/
theorem assemble_one_operand_immediate_witness :
    assemble [] "push 2047".toList = .ok 0x57ff ∧
    assemble [] "push 2048".toList = .error 5 ∧
    assemble [] "jmp 4095".toList = .ok 0xafff ∧
    assemble [] "jmp 4096".toList = .error 5 :=
  ⟨((assemble_one_operand_immediate [] "push".toList "2047".toList (by decide) (by decide)).1
      (by decide)).1 (by decide),
   ((assemble_one_operand_immediate [] "push".toList "2048".toList (by decide) (by decide)).1
      (by decide)).2 (by decide),
   ((assemble_one_operand_immediate [] "jmp".toList "4095".toList (by decide) (by decide)).2
      (by decide)).1 (by decide),
   ((assemble_one_operand_immediate [] "jmp".toList "4096".toList (by decide) (by decide)).2
      (by decide)).2 (by decide)⟩

/-- C2 as stated fails: the literal 4294967296 is not below the limit 2048 of `push`, yet
`push 4294967296` does not throw: it assembles to the word of `push 0`. -/
theorem assemble_one_operand_immediate_overflow :
    "push".toList ∈ eleven_bit ∧ is_literal "4294967296".toList ∧
    2048 ≤ lit_value "4294967296".toList ∧
    assemble [] (line1 "push".toList "4294967296".toList) = .ok 0x5000 ∧
    assemble [] (line1 "push".toList "4294967296".toList) ≠ .error 5 := by
  refine ⟨by decide, by decide, by decide, by rfl, ?_⟩
  have h : assemble [] (line1 "push".toList "4294967296".toList) = .ok 0x5000 := by rfl
  rw [h]; simp

/-! ## Fields of the instruction word -/

theorem and_shl_shr (w m k : Nat) : (w &&& (m <<< k)) >>> k = (w >>> k) &&& m := by
  apply Nat.eq_of_testBit_eq
  intro i
  simp [Nat.testBit_shiftRight, Nat.testBit_and, Nat.testBit_shiftLeft]

/-- The source field `(IR & 0x07f8) >> 3` is bits 3 to 10 of the word. -/
theorem field_src (w : Nat) : (w &&& 0x07f8) >>> 3 = w / 8 % 256 := by
  have h := and_shl_shr w 255 3
  have e := Nat.and_pow_two_sub_one_eq_mod (w >>> 3) 8
  have e2 : (w >>> 3) &&& 255 = w / 8 % 256 := by
    rw [Nat.shiftRight_eq_div_pow] at e ⊢; exact e
  have h2 : (255 : Nat) <<< 3 = 0x07f8 := by decide
  rw [h2] at h
  rw [h, e2]

/-- The immediate field `IR & 0x07ff` is the low 11 bits of the word. -/
theorem field_imm11 (w : Nat) : w &&& 0x07ff = w % 2048 := by
  simpa using Nat.and_pow_two_sub_one_eq_mod w 11

/-- The register flag `IR & 0x0800` is bit 11 of the word. -/
theorem flag_bit (w : Nat) : w &&& 0x0800 = (w / 2048 % 2) * 2048 := by
  have := Nat.and_two_pow w 11
  rw [Nat.toNat_testBit] at this
  simpa using this

theorem or_eq_add (x y k : Nat) (hx : x % 2 ^ k = 0) (hy : y < 2 ^ k) : x ||| y = x + y := by
  have hx2 : x = 2 ^ k * (x / 2 ^ k) := by
    have := Nat.mod_add_div x (2 ^ k)
    omega
  rw [hx2, ← Nat.mul_add_lt_is_or hy]

theorem or_eq_add_12 {x y : Nat} (hx : x % 4096 = 0) (hy : y < 4096) : x ||| y = x + y :=
  or_eq_add x y 12 hx hy

theorem or_eq_add_11 {x y : Nat} (hx : x % 2048 = 0) (hy : y < 2048) : x ||| y = x + y :=
  or_eq_add x y 11 hx hy

theorem or_eq_add_3 {x y : Nat} (hx : x % 8 = 0) (hy : y < 8) : x ||| y = x + y :=
  or_eq_add x y 3 hx hy

/-- The word `(opc << 12) | (n << 3) | idx` as a sum. -/
theorem word_imm_reg_sum {opc n idx : Nat} (hn : n < 256) (hi : idx < 8) :
    (opc <<< 12) ||| (n <<< 3) ||| idx = opc * 4096 + n * 8 + idx := by
  have e1 : opc <<< 12 = opc * 4096 := by rw [Nat.shiftLeft_eq]
  have e2 : n <<< 3 = n * 8 := by rw [Nat.shiftLeft_eq]
  have a1 : opc * 4096 ||| n * 8 = opc * 4096 + n * 8 := or_eq_add_12 (by omega) (by omega)
  have a2 : (opc * 4096 + n * 8) ||| idx = opc * 4096 + n * 8 + idx :=
    or_eq_add_3 (by omega) hi
  rw [e1, e2, a1, a2]

/-- The word `(opc << 12) | n` as a sum. -/
theorem word_imm_sum {opc n : Nat} (hn : n < 4096) : (opc <<< 12) ||| n = opc * 4096 + n := by
  have e1 : opc <<< 12 = opc * 4096 := by rw [Nat.shiftLeft_eq]
  rw [e1, or_eq_add_12 (by omega) hn]

/-- The word of a two-operand instruction with a register source. -/
theorem word_reg_reg {opc src idx : Nat} (ho : opc < 16) (hs : src < 8) (hi : idx < 8) :
    ((((opc <<< 12) % 65536) ||| 0x0800 ||| (src <<< 3)) % 65536 ||| idx) % 65536
      = opc * 4096 + 2048 + src * 8 + idx := by
  have e1 : opc <<< 12 = opc * 4096 := by rw [Nat.shiftLeft_eq]
  have e2 : src <<< 3 = src * 8 := by rw [Nat.shiftLeft_eq]
  have m1 : opc * 4096 % 65536 = opc * 4096 := Nat.mod_eq_of_lt (by omega)
  have a1 : opc * 4096 ||| 2048 = opc * 4096 + 2048 := or_eq_add_12 (by omega) (by omega)
  have a2 : (opc * 4096 + 2048) ||| src * 8 = opc * 4096 + 2048 + src * 8 :=
    or_eq_add_11 (by omega) (by omega)
  have m2 : (opc * 4096 + 2048 + src * 8) % 65536 = opc * 4096 + 2048 + src * 8 :=
    Nat.mod_eq_of_lt (by omega)
  have a3 : (opc * 4096 + 2048 + src * 8) ||| idx = opc * 4096 + 2048 + src * 8 + idx :=
    or_eq_add_3 (by omega) hi
  have m3 : (opc * 4096 + 2048 + src * 8 + idx) % 65536 = opc * 4096 + 2048 + src * 8 + idx :=
    Nat.mod_eq_of_lt (by omega)
  rw [e1, e2, m1, a1, a2, m2, a3, m3]

/-- The word of `push` or `store` with a register source. -/
theorem word_reg11 {opc src : Nat} (ho : opc < 16) (hs : src < 8) :
    ((((opc <<< 12) % 65536) ||| 0x0800) % 65536 ||| (src <<< 3) % 65536) % 65536
      = opc * 4096 + 2048 + src * 8 := by
  have e1 : opc <<< 12 = opc * 4096 := by rw [Nat.shiftLeft_eq]
  have e2 : src <<< 3 = src * 8 := by rw [Nat.shiftLeft_eq]
  have m1 : opc * 4096 % 65536 = opc * 4096 := Nat.mod_eq_of_lt (by omega)
  have a1 : opc * 4096 ||| 2048 = opc * 4096 + 2048 := or_eq_add_12 (by omega) (by omega)
  have m2 : (opc * 4096 + 2048) % 65536 = opc * 4096 + 2048 := Nat.mod_eq_of_lt (by omega)
  have m3 : src * 8 % 65536 = src * 8 := Nat.mod_eq_of_lt (by omega)
  have a2 : (opc * 4096 + 2048) ||| src * 8 = opc * 4096 + 2048 + src * 8 :=
    or_eq_add_11 (by omega) (by omega)
  have m4 : (opc * 4096 + 2048 + src * 8) % 65536 = opc * 4096 + 2048 + src * 8 :=
    Nat.mod_eq_of_lt (by omega)
  rw [e1, e2, m1, a1, m2, m3, a2, m4]

/-- Decoding a word whose register flag is clear: the 8-bit source is the immediate. -/
theorem decode_src_8_imm (s : vmfplusone) (h : s.IR / 2048 % 2 = 0) :
    decode_src_8 s = some ((s.IR / 8 % 256 : Nat) : Int) := by
  simp [decode_src_8, flag_bit, field_src, h]

/-- Decoding a word whose register flag is set: the source is the register of bits 3-10. -/
theorem decode_src_8_reg (s : vmfplusone) (h : s.IR / 2048 % 2 = 1) (hi : s.IR / 8 % 256 < 8) :
    decode_src_8 s = some (s.REG (s.IR / 8 % 256)) := by
  simp [decode_src_8, flag_bit, field_src, h, read_REG, hi]

theorem decode_src_11_imm (s : vmfplusone) (h : s.IR / 2048 % 2 = 0) :
    decode_src_11 s = some ((s.IR % 2048 : Nat) : Int) := by
  simp [decode_src_11, flag_bit, field_imm11, h]

theorem decode_src_11_reg (s : vmfplusone) (h : s.IR / 2048 % 2 = 1) (hi : s.IR / 8 % 256 < 8) :
    decode_src_11 s = some (s.REG (s.IR / 8 % 256)) := by
  simp [decode_src_11, flag_bit, field_src, h, read_REG, hi]

theorem two_operand_names : ∀ op ∈ two_operand, Instruction[Opcodes op]? = some op := by decide

theorem eleven_bit_names : ∀ op ∈ eleven_bit, Instruction[Opcodes op]? = some op := by decide

/-! ## C3, C4: assembling, then decoding -/

/-- C3: round trip of the two-operand class. For every `op` in add, sub, mult, div, mov,
every destination register `r` and every machine state `m`: the line `op n r` with a
literal of value `n <= 255` assembles to a word `w` such that, with `IR = w`,
`Instruction[IR >> 12]` is `op`, `decode_dst()` is the index of `r` and `decode_src_8()`
is `n`; the line `op s r` with a register `s` assembles to a word for which the first two
hold and `decode_src_8()` is `REG[index(s)]`. -/
theorem roundtrip_two_operand (operation op r : List Char) (m : vmfplusone)
    (hop : op ∈ two_operand) (hr : r ∈ register_names) :
    (∀ ds, is_literal ds → lit_value ds ≤ 255 →
      ∃ w, assemble operation (line2 op ds r) = .ok w ∧
        Instruction[w >>> 12]? = some op ∧
        decode_dst { m with IR := w } = Registers r ∧
        decode_src_8 { m with IR := w } = some (lit_value ds : Int)) ∧
    (∀ src ∈ register_names,
      ∃ w, assemble operation (line2 op src r) = .ok w ∧
        Instruction[w >>> 12]? = some op ∧
        decode_dst { m with IR := w } = Registers r ∧
        decode_src_8 { m with IR := w } = some (m.REG (Registers src))) := by
  obtain ⟨hsym, h015, hcls, hlt⟩ := two_operand_facts op hop
  obtain ⟨hrsym, hrlen, hridx⟩ := register_facts r hr
  have hname := two_operand_names op hop
  constructor
  · intro ds hds hn
    have hw : assemble operation (line2 op ds r)
        = .ok (Opcodes op * 4096 + lit_value ds * 8 + Registers r) := by
      rw [assemble_imm_reg operation op ds r hsym hds hrsym]
      have hl : ¬ ((r.length : Int) ≠ 2) := by rw [hrlen]; simp
      have hlim : ¬ wrap32 (lit_value ds : Int) ≥ 256 := by rw [wrap32_nat (by omega)]; omega
      simp only [if_neg h015, if_pos hcls, if_neg hlim, if_neg hl]
      rw [word_imm_reg hlt (by omega) (by omega), word_imm_reg_sum (by omega) (by omega)]
    refine ⟨_, hw, ?_⟩
    have e1 : (Opcodes op * 4096 + lit_value ds * 8 + Registers r) >>> 12 = Opcodes op := by
      rw [Nat.shiftRight_eq_div_pow]; omega
    refine ⟨by rw [e1]; exact hname, by simp only [decode_dst]; omega, ?_⟩
    rw [decode_src_8_imm _ (by simp only []; omega)]
    simp only []
    congr 2; omega
  · intro src hsrc
    obtain ⟨hssym, hslen, hsidx⟩ := register_facts src hsrc
    have hw : assemble operation (line2 op src r)
        = .ok (Opcodes op * 4096 + 2048 + Registers src * 8 + Registers r) := by
      rw [assemble_reg_reg operation op src r hsym hssym hrsym]
      have hl : ¬ ((src.length : Int) ≠ 2) := by rw [hslen]; simp
      have hl2 : ¬ ((r.length : Int) ≠ 2) := by rw [hrlen]; simp
      simp only [if_neg h015, if_pos hcls, if_neg hl, if_neg hl2]
      rw [word_reg_reg hlt (by omega) (by omega)]
    refine ⟨_, hw, ?_⟩
    have e1 : (Opcodes op * 4096 + 2048 + Registers src * 8 + Registers r) >>> 12
        = Opcodes op := by
      rw [Nat.shiftRight_eq_div_pow]; omega
    refine ⟨by rw [e1]; exact hname, by simp only [decode_dst]; omega, ?_⟩
    rw [decode_src_8_reg _ (by simp only []; omega) (by simp only []; omega)]
    simp only []
    congr 2; omega

/-- Witness of C3: `mov 7 bx` and `mov cx bx` on the machine as constructed. -/
theorem roundtrip_two_operand_witness :
    (∃ w, assemble [] "mov 7 bx".toList = .ok w ∧
        Instruction[w >>> 12]? = some "mov".toList ∧
        decode_dst { vmfplusone.construct (fun _ => 0) with IR := w } = 1 ∧
        decode_src_8 { vmfplusone.construct (fun _ => 0) with IR := w } = some 7) ∧
    (∃ w, assemble [] "mov sp bx".toList = .ok w ∧
        Instruction[w >>> 12]? = some "mov".toList ∧
        decode_dst { vmfplusone.construct (fun _ => 0) with IR := w } = 1 ∧
        decode_src_8 { vmfplusone.construct (fun _ => 0) with IR := w } = some 4096) :=
  ⟨(roundtrip_two_operand [] "mov".toList "bx".toList (vmfplusone.construct (fun _ => 0))
      (by decide) (by decide)).1 "7".toList (by decide) (by decide),
   (roundtrip_two_operand [] "mov".toList "bx".toList (vmfplusone.construct (fun _ => 0))
      (by decide) (by decide)).2 "sp".toList (by decide)⟩

/-- C4: round trip of the push/store class. For `op` in push, store and every machine
state `m`: the line `op v` with a literal of value `v <= 2047` assembles to a word `w`
such that, with `IR = w`, `decode_src_11()` is `v`; the line `op r` with a register `r`
assembles to a word for which `decode_src_11()` is `REG[index(r)]`; in both cases
`Instruction[IR >> 12]` is `op`. -/
theorem roundtrip_push_store (operation op : List Char) (m : vmfplusone)
    (hop : op ∈ eleven_bit) :
    (∀ ds, is_literal ds → lit_value ds ≤ 2047 →
      ∃ w, assemble operation (line1 op ds) = .ok w ∧
        Instruction[w >>> 12]? = some op ∧
        decode_src_11 { m with IR := w } = some (lit_value ds : Int)) ∧
    (∀ r ∈ register_names,
      ∃ w, assemble operation (line1 op r) = .ok w ∧
        Instruction[w >>> 12]? = some op ∧
        decode_src_11 { m with IR := w } = some (m.REG (Registers r))) := by
  obtain ⟨hsym, h015, hcls, h59, hlt⟩ := eleven_bit_facts op hop
  have hname := eleven_bit_names op hop
  constructor
  · intro ds hds hn
    have hw : assemble operation (line1 op ds) = .ok (Opcodes op * 4096 + lit_value ds) := by
      rw [assemble_imm operation op ds hsym hds]
      have hlim : ¬ wrap32 (lit_value ds : Int) ≥ 2048 := by rw [wrap32_nat (by omega)]; omega
      simp only [if_neg h015, if_neg hcls, if_pos h59, if_neg hlim]
      rw [word_imm hlt (by omega), word_imm_sum (by omega)]
    refine ⟨_, hw, ?_⟩
    have e1 : (Opcodes op * 4096 + lit_value ds) >>> 12 = Opcodes op := by
      rw [Nat.shiftRight_eq_div_pow]; omega
    refine ⟨by rw [e1]; exact hname, ?_⟩
    rw [decode_src_11_imm _ (by simp only []; omega)]
    simp only []
    congr 2; omega
  · intro r hr
    obtain ⟨hrsym, hrlen, hridx⟩ := register_facts r hr
    have hw : assemble operation (line1 op r)
        = .ok (Opcodes op * 4096 + 2048 + Registers r * 8) := by
      rw [assemble_reg operation op r hsym hrsym]
      have hl : ¬ ((r.length : Int) ≠ 2) := by rw [hrlen]; simp
      simp only [if_neg h015, if_neg hcls, if_pos h59, if_neg hl]
      rw [word_reg11 hlt (by omega)]
    refine ⟨_, hw, ?_⟩
    have e1 : (Opcodes op * 4096 + 2048 + Registers r * 8) >>> 12 = Opcodes op := by
      rw [Nat.shiftRight_eq_div_pow]; omega
    refine ⟨by rw [e1]; exact hname, ?_⟩
    rw [decode_src_11_reg _ (by simp only []; omega) (by simp only []; omega)]
    simp only []
    congr 2; omega

/-- Witness of C4: `push 2047` and `store sp` on the machine as constructed. -/
theorem roundtrip_push_store_witness :
    (∃ w, assemble [] "push 2047".toList = .ok w ∧
        Instruction[w >>> 12]? = some "push".toList ∧
        decode_src_11 { vmfplusone.construct (fun _ => 0) with IR := w } = some 2047) ∧
    (∃ w, assemble [] "store sp".toList = .ok w ∧
        Instruction[w >>> 12]? = some "store".toList ∧
        decode_src_11 { vmfplusone.construct (fun _ => 0) with IR := w } = some 4096) :=
  ⟨(roundtrip_push_store [] "push".toList (vmfplusone.construct (fun _ => 0))
      (by decide)).1 "2047".toList (by decide) (by decide),
   (roundtrip_push_store [] "store".toList (vmfplusone.construct (fun _ => 0))
      (by decide)).2 "sp".toList (by decide)⟩

/-! ## The machine: ranges of the 16-bit integers -/

theorem wrap16_of_range {x : Int} (h1 : -32768 ≤ x) (h2 : x ≤ 32767) : wrap16 x = x := by
  unfold wrap16; omega

theorem wrap16_range (x : Int) : -32768 ≤ wrap16 x ∧ wrap16 x ≤ 32767 := by
  unfold wrap16; omega

theorem wrap16_congruent (x : Int) : (wrap16 x - x) % 65536 = 0 := by
  unfold wrap16; omega

theorem tmod_neg_left (a b : Int) : (-a).tmod b = -(a.tmod b) := by
  rw [Int.tmod_def, Int.neg_tdiv, Int.tmod_def]; ring

theorem tdiv_mul_nonneg {a b : Int} (ha : 0 ≤ a) : 0 ≤ b * a.tdiv b := by
  rcases le_total 0 b with hb | hb
  · exact Int.mul_nonneg hb (Int.tdiv_nonneg ha hb)
  · have h1 : 0 ≤ a.tdiv (-b) := Int.tdiv_nonneg ha (by omega)
    rw [Int.tdiv_neg] at h1
    have h2 : 0 ≤ (-b) * (-(a.tdiv b)) := Int.mul_nonneg (by omega) h1
    have h3 : (-b) * (-(a.tdiv b)) = b * a.tdiv b := by ring
    omega

/-- The truncated remainder lies between 0 and the dividend. -/
theorem tmod_between (a b : Int) :
    (0 ≤ a → 0 ≤ a.tmod b ∧ a.tmod b ≤ a) ∧ (a ≤ 0 → a ≤ a.tmod b ∧ a.tmod b ≤ 0) := by
  have key : ∀ x : Int, 0 ≤ x → 0 ≤ x.tmod b ∧ x.tmod b ≤ x := by
    intro x hx
    have h1 := Int.tmod_nonneg b hx
    have h2 := tdiv_mul_nonneg (b := b) hx
    have h3 := Int.tmod_def x b
    omega
  refine ⟨key a, fun ha => ?_⟩
  have h := key (-a) (by omega)
  rw [tmod_neg_left] at h
  omega

/-- The truncated quotient of 16-bit operands is a 16-bit value, the quotient of -32768
by -1 apart. -/
theorem tdiv_int16 {a b : Int} (ha1 : -32768 ≤ a) (ha2 : a ≤ 32767) (hb : b ≠ 0)
    (hx : ¬ (a = -32768 ∧ b = -1)) : -32768 ≤ a.tdiv b ∧ a.tdiv b ≤ 32767 := by
  by_cases h1 : b = 1
  · subst h1; rw [Int.tdiv_one]; omega
  by_cases h2 : b = -1
  · subst h2
    have : a.tdiv (-1) = -a := by rw [Int.tdiv_neg, Int.tdiv_one]
    rw [this]; omega
  have hq := Int.natAbs_tdiv a b
  have hle : (a.tdiv b).natAbs * b.natAbs ≤ a.natAbs := by
    rw [hq]; exact Nat.div_mul_le_self _ _
  have hb2 : 2 ≤ b.natAbs := by omega
  have h3 : (a.tdiv b).natAbs * 2 ≤ (a.tdiv b).natAbs * b.natAbs := Nat.mul_le_mul_left _ hb2
  omega

/-! ## C5: `jmp` reads its target with the 11-bit decoder -/

/-- C5 at the failing input: `jmp 2048` assembles to `0xa800`, whose bit 11 is set; on the
machine as constructed (all registers 0 but `sp`) with that word at address 1,
`execute_instruction` takes the target from `REG[0]` and leaves `PC = 0`, not 2048. -/
theorem jmp_2048_reads_register :
    assemble [] "jmp 2048".toList = .ok 0xa800 ∧
    (one_instruction 0xa800).PC = 1 ∧
    to_u16 ((one_instruction 0xa800).RAM 1) = 0xa800 ∧
    ∃ m, execute_instruction (one_instruction 0xa800) = .done m ∧ m.PC = 0 ∧ m.PC ≠ 2048 :=
  ⟨rfl, rfl, by decide, _, rfl, rfl, by decide⟩

/-! ## C6: `push` followed by `pop` -/

/-- What `push` does when the stack pointer is a valid index: the outcome, written out. -/
theorem push_done (m : vmfplusone) (v : Int) (hsrc : decode_src_11 m = some v)
    (h1 : 0 ≤ m.REG SP) (h2 : m.REG SP < 32768) :
    push m = .done { m with RAM := Function.update m.RAM (m.REG SP).toNat v,
                            REG := Function.update m.REG SP (wrap16 (m.REG SP + 1)) } := by
  have hb : 0 ≤ m.REG SP ∧ m.REG SP < (MEMSIZE : Int) := ⟨h1, by simpa [MEMSIZE] using h2⟩
  simp only [push, hsrc, if_pos hb]

/-- What `pop` does on a non-empty stack: the outcome, written out. -/
theorem pop_done (m : vmfplusone) (h1 : 4096 < m.REG SP) (h2 : m.REG SP ≤ 32767) :
    pop m = .done { m with REG := (Function.update (Function.update m.REG SP (m.REG SP - 1))
                      (m.IR % 8) (m.RAM (m.REG SP - 1).toNat)) } := by
  have e : wrap16 (m.REG SP - 1) = m.REG SP - 1 := wrap16_of_range (by omega) (by omega)
  have hgt : m.REG SP > StackSegment := by simp only [StackSegment]; omega
  have hb : 0 ≤ m.REG SP - 1 ∧ m.REG SP - 1 < (MEMSIZE : Int) := by
    refine ⟨by omega, ?_⟩
    simp only [MEMSIZE]; omega
  simp only [pop, decode_dst, if_pos hgt, read_RAM, Function.update_same, e, if_pos hb]

/-- C6 (as amended): on every machine with `sp` in `[4096, 12287)` whose instruction
register holds a push source that decodes to `v` (an immediate, or a register holding `v`),
`push` returns; then `pop` of any word `w`, whose destination is register `w % 8`, returns
too and leaves `REG[w % 8] = v`; when the destination is not `sp`, the stack pointer is
what it was before the push. -/
theorem push_then_pop (m : vmfplusone) (v : Int) (w : Nat)
    (hlo : 4096 ≤ m.REG SP) (hhi : m.REG SP < 12287) (hsrc : decode_src_11 m = some v) :
    ∃ m1 m2, push m = .done m1 ∧ pop { m1 with IR := w } = .done m2 ∧
      m2.REG (w % 8) = v ∧ (w % 8 ≠ SP → m2.REG SP = m.REG SP) := by
  have e1 : wrap16 (m.REG SP + 1) = m.REG SP + 1 := wrap16_of_range (by omega) (by omega)
  have hpush := push_done m v hsrc (by omega) (by omega)
  rw [e1] at hpush
  refine ⟨_, _, hpush, pop_done _ ?_ ?_, ?_, ?_⟩
  · simp only [Function.update_same]; omega
  · simp only [Function.update_same]; omega
  · have e2 : (m.REG SP + 1 - 1).toNat = (m.REG SP).toNat := by congr 1; omega
    simp only [Function.update_same]
    rw [Function.update_same, e2, Function.update_same]
  · intro hne
    have hne2 : SP ≠ w % 8 := fun h => hne h.symm
    simp only [Function.update_noteq hne2, Function.update_same]
    omega

/-- Witness of C6 (as amended): `push 5` then `pop ax` on the machine as constructed. -/
theorem push_then_pop_witness :
    ∃ m1 m2, push { vmfplusone.construct (fun _ => 0) with IR := 0x5005 } = .done m1 ∧
      pop { m1 with IR := 0x6000 } = .done m2 ∧
      m2.REG (0x6000 % 8) = 5 ∧ (0x6000 % 8 ≠ SP → m2.REG SP = 4096) :=
  push_then_pop { vmfplusone.construct (fun _ => 0) with IR := 0x5005 } 5 0x6000
    (by decide) (by decide) rfl

/-- C6 as stated fails for the destination `sp`: on the machine as constructed
(`sp = 4096`), `push 5` then `pop sp` leaves `sp = 5`, not 4096. The words are those that
`assemble` produces. -/
theorem push_then_pop_sp :
    assemble [] "push 5".toList = .ok 0x5005 ∧ assemble [] "pop sp".toList = .ok 0x6003 ∧
    (vmfplusone.construct (fun _ => 0)).REG SP = 4096 ∧
    ∃ m1 m2, push { vmfplusone.construct (fun _ => 0) with IR := 0x5005 } = .done m1 ∧
      pop { m1 with IR := 0x6003 } = .done m2 ∧ m2.REG SP = 5 ∧ m2.REG SP ≠ 4096 :=
  ⟨rfl, rfl, rfl, _, _, rfl, rfl, rfl, by decide⟩

/-! ## C7: `call` on the empty stack -/

/-- C7 at the failing input: on the machine as constructed (`sp = 4096`) with `call 2` at
address 1 and `ret` at address 2, executing the call throws 2: the guard of `call` is
`REG[SP]-1 >= StackSegment`, which is false on the empty stack. -/
theorem call_on_empty_stack :
    assemble [] "call 2".toList = .ok 0xe002 ∧ assemble [] "ret".toList = .ok 0xf000 ∧
    (two_instructions 0xe002 0xf000).REG SP = 4096 ∧
    (two_instructions 0xe002 0xf000).PC = 1 ∧
    to_u16 ((two_instructions 0xe002 0xf000).RAM 1) = 0xe002 ∧
    to_u16 ((two_instructions 0xe002 0xf000).RAM 2) = 0xf000 ∧
    ∃ m, execute_instruction (two_instructions 0xe002 0xf000) = .thrown 2 m :=
  ⟨rfl, rfl, rfl, rfl, by decide, by decide, _, rfl⟩

/-! ## C8: `div` -/

/-- C8: on every machine whose destination register holds a 16-bit value `d` and whose
8-bit-class source decodes to `s` with `s != 0` (and not `d = -32768` with `s = -1`), `div`
returns and leaves `cx = d rem s` (truncated remainder) whatever the destination is; when
the destination is not `cx` it leaves `REG[dst] = d quot s` (truncated quotient), so that
`REG[dst] * s + cx = d`. -/
theorem div_quotient_remainder (m : vmfplusone) (s : Int)
    (hsrc : decode_src_8 m = some s) (hs : s ≠ 0)
    (hd1 : -32768 ≤ m.REG (decode_dst m)) (hd2 : m.REG (decode_dst m) ≤ 32767)
    (hx : ¬ (m.REG (decode_dst m) = -32768 ∧ s = -1)) :
    ∃ m', div m = .done m' ∧
      m'.REG CX = (m.REG (decode_dst m)).tmod s ∧
      (decode_dst m ≠ CX →
        m'.REG (decode_dst m) = (m.REG (decode_dst m)).tdiv s ∧
        m'.REG (decode_dst m) * s + m'.REG CX = m.REG (decode_dst m)) := by
  have hq := tdiv_int16 hd1 hd2 hs hx
  have hr := tmod_between (m.REG (decode_dst m)) s
  have er : wrap16 ((m.REG (decode_dst m)).tmod s) = (m.REG (decode_dst m)).tmod s :=
    wrap16_of_range (by omega) (by omega)
  have eq : wrap16 ((m.REG (decode_dst m)).tdiv s) = (m.REG (decode_dst m)).tdiv s :=
    wrap16_of_range hq.1 hq.2
  have hdiv : div m = .done { m with REG := (Function.update
      (Function.update m.REG (decode_dst m) (wrap16 ((m.REG (decode_dst m)).tdiv s)))
      2 (wrap16 ((m.REG (decode_dst m)).tmod s))) } := by
    simp only [div, hsrc, if_neg hs]
  refine ⟨_, hdiv, ?_, ?_⟩
  · simp only [CX, Function.update_same, er]
  · intro hne
    have hne2 : decode_dst m ≠ 2 := hne
    simp only [CX, Function.update_same, Function.update_noteq hne2, er, eq, true_and]
    exact Int.tdiv_add_tmod' _ _

/-- Witness of C8: with `ax = 7`, `div 2 ax` (the word `0x4010`) gives `ax = 3`, `cx = 1`. -/
theorem div_quotient_remainder_witness :
    assemble [] "div 2 ax".toList = .ok 0x4010 ∧
    ∃ m', div (with_ax 7 0x4010) = .done m' ∧
      m'.REG CX = 1 ∧ (AX ≠ CX → m'.REG AX = 3 ∧ m'.REG AX * 2 + m'.REG CX = 7) :=
  ⟨rfl, div_quotient_remainder (with_ax 7 0x4010) 2 rfl
      (by decide) (by decide) (by decide) (by decide)⟩

/-! ## C9: `add`, `sub`, `mult` -/

/-- What `mov` does: the outcome, written out. -/
theorem mov_done (m : vmfplusone) (v : Int) (hsrc : decode_src_8 m = some v) :
    mov m = .done { m with REG := (Function.update m.REG (decode_dst m)
      (wrap16 (to_u16 v))) } := by
  simp only [mov, hsrc]

/-- C9: on every machine whose 8-bit-class source decodes to `s` (an immediate or a
register, the destination register itself included), with `d` the value of the destination
register: `add`, `sub` and `mult` return, leave in the destination register `d + s`,
`d - s` and `d * s` reduced to a signed 16-bit two's-complement value, and change no other
register and no memory cell. -/
theorem alu_wraparound (m : vmfplusone) (s : Int) (hsrc : decode_src_8 m = some s) :
    alu_result m (add m) (m.REG (decode_dst m) + s) ∧
    alu_result m (sub m) (m.REG (decode_dst m) - s) ∧
    alu_result m (mult m) (m.REG (decode_dst m) * s) := by
  have hadd : add m = .done { m with REG := (Function.update m.REG (decode_dst m)
      (wrap16 (m.REG (decode_dst m) + s))) } := by simp only [add, hsrc]
  have hsub : sub m = .done { m with REG := (Function.update m.REG (decode_dst m)
      (wrap16 (m.REG (decode_dst m) - s))) } := by simp only [sub, hsrc]
  have hmult : mult m = .done { m with REG := (Function.update m.REG (decode_dst m)
      (wrap16 (m.REG (decode_dst m) * s))) } := by simp only [mult, hsrc]
  refine ⟨⟨_, hadd, ?_⟩, ⟨_, hsub, ?_⟩, ⟨_, hmult, ?_⟩⟩ <;>
  · simp only [Function.update_same]
    refine ⟨(wrap16_range _).1, (wrap16_range _).2, wrap16_congruent _, ?_, trivial⟩
    intro i hi
    exact Function.update_noteq hi _ _

/-- Witness of C9: `mov 0 ax` then `sub 1 ax` (the words `0x7000` and `0x2008`) on a machine
with `ax = 9` yields `ax = -1`. -/
theorem alu_wraparound_witness :
    assemble [] "mov 0 ax".toList = .ok 0x7000 ∧ assemble [] "sub 1 ax".toList = .ok 0x2008 ∧
    ∃ m1 m2, mov (with_ax 9 0x7000) = .done m1 ∧
      sub { m1 with IR := 0x2008 } = .done m2 ∧ m2.REG AX = -1 := by
  have hmov := mov_done (with_ax 9 0x7000) 0 rfl
  obtain ⟨m2, h, hlo, hhi, hmod, -, -⟩ := (alu_wraparound
    { ({ with_ax 9 0x7000 with REG := (Function.update (with_ax 9 0x7000).REG
          (decode_dst (with_ax 9 0x7000)) (wrap16 (to_u16 0))) } : vmfplusone)
      with IR := 0x2008 } 1 rfl).2.1
  have hlo2 : -32768 ≤ m2.REG AX := hlo
  have hhi2 : m2.REG AX ≤ 32767 := hhi
  have hmod2 : (m2.REG AX - (0 - 1)) % 65536 = 0 := hmod
  exact ⟨rfl, rfl, _, m2, hmov, h, by omega⟩

/-! ## C10: `pop` on the empty stack -/

/-- C10: on every machine with `sp = 4096`, `pop` throws 2 (StackUnderflow) with the machine
untouched, whatever the destination register; and `execute_instruction` on a `pop` word
(opcode 6 at `RAM[PC]`) throws 2 and leaves every register, every memory cell and `PC`
as they were. -/
theorem pop_on_empty_stack (m : vmfplusone) (hsp : m.REG SP = 4096) :
    pop m = .thrown 2 m ∧
    (m.PC < 32768 → to_u16 (m.RAM m.PC) >>> 12 = 6 →
      ∃ m', execute_instruction m = .thrown 2 m' ∧
        m'.REG = m.REG ∧ m'.RAM = m.RAM ∧ m'.PC = m.PC) := by
  have hpop : ∀ x : vmfplusone, x.REG SP = 4096 → pop x = .thrown 2 x := by
    intro x hx
    have : ¬ x.REG SP > StackSegment := by simp only [StackSegment]; omega
    simp only [pop, if_neg this]
  refine ⟨hpop m hsp, fun hpc hop => ?_⟩
  have hb : CodeSegment + m.PC < MEMSIZE := by simp only [CodeSegment, MEMSIZE]; omega
  have hop' : to_u16 (m.RAM (CodeSegment + m.PC)) >>> 12 = 6 := by
    simpa only [CodeSegment, Nat.zero_add] using hop
  refine ⟨{ m with IR := to_u16 (m.RAM (CodeSegment + m.PC)) }, ?_, rfl, rfl, rfl⟩
  simp only [execute_instruction, if_pos hb, hop', ops]
  rw [hpop { m with IR := to_u16 (m.RAM (CodeSegment + m.PC)) } hsp]

/-- Witness of C10: `pop ax` (the word `0x6000`) on the machine as constructed. -/
theorem pop_on_empty_stack_witness :
    assemble [] "pop ax".toList = .ok 0x6000 ∧
    pop (one_instruction 0x6000) = .thrown 2 (one_instruction 0x6000) ∧
    ∃ m', execute_instruction (one_instruction 0x6000) = .thrown 2 m' ∧
      m'.REG = (one_instruction 0x6000).REG ∧ m'.RAM = (one_instruction 0x6000).RAM ∧
      m'.PC = (one_instruction 0x6000).PC :=
  ⟨rfl, (pop_on_empty_stack (one_instruction 0x6000) rfl).1,
   (pop_on_empty_stack (one_instruction 0x6000) rfl).2 (by decide) (by decide)⟩

/-! ## C11: `ret` does not look at the address it pops -/

/-- C11 at the failing input: the program `mov 200 ax`, `mult 25 ax`, `push ax`, `ret`.
After three instructions the stack holds one cell (`sp = 4097`) with the value 5000,
outside `[0, 4095]`; `ret` on that machine returns normally with `PC = 5000`, and the run
ends after the fourth instruction with `PC = 5001` and nothing thrown. -/
theorem ret_takes_any_address :
    assemble [] "mov 200 ax".toList = .ok 0x7640 ∧
    assemble [] "mult 25 ax".toList = .ok 0x30c8 ∧
    assemble [] "push ax".toList = .ok 0x5800 ∧
    assemble [] "ret".toList = .ok 0xf000 ∧
    ∃ m3 m4, run_program [0x7640, 0x30c8, 0x5800, 0xf000] 3 = .done m3 ∧
      m3.PC = 4 ∧ m3.REG SP = 4097 ∧ m3.RAM 4096 = 5000 ∧
      ret { m3 with IR := 0xf000 } = .done m4 ∧ m4.PC = 5000 ∧
      ∃ m5, run_program [0x7640, 0x30c8, 0x5800, 0xf000] 4 = .done m5 ∧ m5.PC = 5001 :=
  ⟨rfl, rfl, rfl, rfl, _, _, rfl, rfl, rfl, rfl, rfl, rfl, _, rfl, rfl⟩

/-! ## C12: `push` and `call` at the top of the stack segment -/

/-- C12 at the failing input: on the machine with `sp = 12287`, the last address of the
stack segment, `push 7` returns normally, writes `RAM[12287]` and leaves `sp = 12288`;
`call 2` on the same stack does the same with the pushed `PC`. Nothing is thrown. -/
theorem push_past_stack_limit :
    assemble [] "push 7".toList = .ok 0x5007 ∧ assemble [] "call 2".toList = .ok 0xe002 ∧
    (with_reg SP 12287 0x5007).REG SP = 12287 ∧ (with_reg SP 12287 0x5007).RAM 12287 = 0 ∧
    (∃ m, push (with_reg SP 12287 0x5007) = .done m ∧ m.REG SP = 12288 ∧ m.RAM 12287 = 7) ∧
    (∃ m, call (with_reg SP 12287 0xe002) = .done m ∧ m.REG SP = 12288 ∧ m.RAM 12287 = 1) :=
  ⟨rfl, rfl, rfl, rfl, ⟨_, rfl, rfl, rfl⟩, ⟨_, rfl, rfl, rfl⟩⟩

/-! ## C13: `store` does not look at `ma` -/

/-- C13 at the failing input: with `ma = 0`, an address of the code segment, `store 5`
returns normally and writes `RAM[0]`, where `load` on the same machine throws; with
`ma = -1` it does not throw either, the write falls outside `RAM`. -/
theorem store_into_code_segment :
    assemble [] "store 5".toList = .ok 0x9005 ∧ assemble [] "load ax".toList = .ok 0x8000 ∧
    (with_reg MAR 0 0x9005).RAM 0 = 0 ∧
    (∃ m, store (with_reg MAR 0 0x9005) = .done m ∧ m.RAM 0 = 5) ∧
    load (with_reg MAR 0 0x8000) = .thrown 2 (with_reg MAR 0 0x8000) ∧
    store (with_reg MAR (-1) 0x9005) = .undefined :=
  ⟨rfl, rfl, rfl, ⟨_, rfl, rfl⟩, rfl, rfl⟩

/-! ## C15: the target 0 -/

/-- C15 at the failing input: `jmp 0` (the word `0xa000`) does not throw. The test
`src > 0 || src < 4095` holds for the target 0, `jmp` sets `PC = 65535` and
`execute_instruction` leaves `PC = 0`, not the 1 it was. The taken `jz 0` and `call 0` (on
a stack that lets `call` through) do the same. -/
theorem jmp_zero_is_taken :
    assemble [] "jmp 0".toList = .ok 0xa000 ∧ assemble [] "jz 0".toList = .ok 0xc000 ∧
    assemble [] "call 0".toList = .ok 0xe000 ∧
    (∃ m, jmp (with_reg AX 0 0xa000) = .done m ∧ m.PC = 65535) ∧
    (one_instruction 0xa000).PC = 1 ∧
    (∃ m, execute_instruction (one_instruction 0xa000) = .done m ∧ m.PC = 0) ∧
    (∃ m, execute_instruction (one_instruction 0xc000) = .done m ∧ m.PC = 0) ∧
    (∃ m, call (with_reg SP 4097 0xe000) = .done m ∧ m.PC = 65535) :=
  ⟨rfl, rfl, rfl, ⟨_, rfl, rfl⟩, rfl, ⟨_, rfl, rfl⟩, ⟨_, rfl, rfl⟩, ⟨_, rfl, rfl⟩⟩

/-! ## C16, C17: symbols that are in neither table -/

/-- C16 at the failing input: `foo 1` and `halt`, whose first token is no mnemonic, do not
throw: `Opcodes[strop]` is 0 for them and they assemble to the word of `nop`. A line
that starts with a decimal literal throws 4, as the claim says. -/
theorem unknown_mnemonic_is_nop :
    Opcodes_init.lookup "foo".toList = none ∧ Opcodes_init.lookup "halt".toList = none ∧
    assemble [] "foo 1".toList = .ok 0 ∧ assemble [] "halt".toList = .ok 0 ∧
    assemble [] "nop".toList = .ok 0 ∧ assemble [] "12 ax".toList = .error 4 :=
  ⟨rfl, rfl, rfl, rfl, rfl, rfl⟩

/-- C17 at the failing input: `add 1 zz` and `mov ax zz`, whose second operand is a
two-letter symbol that names no register, do not throw: `Registers[reg]` is 0 for `zz`
and the lines assemble to the words of `add 1 ax` and `mov ax ax`. A missing second
operand, a literal and a symbol of another length throw 5, as the claim says. -/
theorem unknown_register_is_ax :
    Registers_init.lookup "zz".toList = none ∧
    assemble [] "add 1 zz".toList = .ok 0x1008 ∧ assemble [] "add 1 ax".toList = .ok 0x1008 ∧
    assemble [] "mov ax zz".toList = .ok 0x7800 ∧ assemble [] "mov ax ax".toList = .ok 0x7800 ∧
    assemble [] "add 1".toList = .error 5 ∧ assemble [] "add 1 2".toList = .error 5 ∧
    assemble [] "add 1 abc".toList = .error 5 ∧ assemble [] "mov ax".toList = .error 5 :=
  ⟨rfl, rfl, rfl, rfl, rfl, rfl, rfl, rfl, rfl⟩

/-! ## C18: the stack pointer leaves the stack segment -/

/-- C18 at the failing input: the program `mov 255 ax`, `mult 32 ax`, `add 31 ax`,
`add ax sp`, `push 7` run from the machine as constructed. Four instructions bring the
stack pointer to 12287, inside the segment; the fifth, the push, returns normally, writes
`RAM[12287]` and leaves `sp = 12288`. The one-instruction program `mov 0 sp` returns
normally with `sp = 0`. -/
theorem stack_pointer_leaves_segment :
    assemble [] "mov 255 ax".toList = .ok 0x77f8 ∧
    assemble [] "mult 32 ax".toList = .ok 0x3100 ∧
    assemble [] "add 31 ax".toList = .ok 0x10f8 ∧
    assemble [] "add ax sp".toList = .ok 0x1803 ∧
    assemble [] "push 7".toList = .ok 0x5007 ∧
    assemble [] "mov 0 sp".toList = .ok 0x7003 ∧
    (∃ m, run_program [0x77f8, 0x3100, 0x10f8, 0x1803, 0x5007] 0 = .done m ∧
      m.REG SP = 4096) ∧
    (∃ m, run_program [0x77f8, 0x3100, 0x10f8, 0x1803, 0x5007] 4 = .done m ∧
      m.REG SP = 12287 ∧ m.RAM 12287 = 0) ∧
    (∃ m, run_program [0x77f8, 0x3100, 0x10f8, 0x1803, 0x5007] 5 = .done m ∧
      m.REG SP = 12288 ∧ m.RAM 12287 = 7) ∧
    (∃ m, run_program [0x7003] 1 = .done m ∧ m.REG SP = 0) :=
  ⟨rfl, rfl, rfl, rfl, rfl, rfl, ⟨_, rfl, rfl⟩, ⟨_, rfl, rfl, rfl⟩, ⟨_, rfl, rfl, rfl⟩,
    ⟨_, rfl, rfl⟩⟩

/-! ## C19: the conditional jumps -/

/-- The member `execute_instruction` on a fetchable address: dispatch on the fetched word,
then the increment. -/
theorem execute_instruction_eq (m : vmfplusone) (hpc : m.PC < 32768) :
    execute_instruction m = then_increment (ops ((fetched m).IR >>> 12) (fetched m)) := by
  have hb : CodeSegment + m.PC < MEMSIZE := by simp only [CodeSegment, MEMSIZE]; omega
  simp only [execute_instruction, if_pos hb, fetched, then_increment]

/-- C19: on every machine, `jnz`, `jz` and `jn` are `jmp` on the same word (same resulting
machine or same failure) when their condition on `cx` holds (`cx != 0`, `cx == 0`,
`cx < 0`) and return with the machine as it is otherwise, so that exactly one of `jz` and
`jnz` takes the jump; through `execute_instruction` (opcodes 11, 12, 13 at `RAM[PC]`) a
jump that is taken ends as `jmp` on the fetched word followed by the increment, and one
that is not taken changes no register and no memory cell and leaves `PC` advanced by
exactly one. -/
theorem conditional_jumps (m : vmfplusone) :
    (m.REG CX ≠ 0 → jnz m = jmp m ∧ jz m = .done m) ∧
    (m.REG CX = 0 → jz m = jmp m ∧ jnz m = .done m) ∧
    (m.REG CX < 0 → jn m = jmp m) ∧
    (0 ≤ m.REG CX → jn m = .done m) ∧
    (m.PC < 32768 →
      ((fetched m).IR >>> 12 = 11 ∧ m.REG CX ≠ 0 ∨ (fetched m).IR >>> 12 = 12 ∧ m.REG CX = 0
          ∨ (fetched m).IR >>> 12 = 13 ∧ m.REG CX < 0 →
        execute_instruction m = then_increment (jmp (fetched m))) ∧
      ((fetched m).IR >>> 12 = 11 ∧ m.REG CX = 0 ∨ (fetched m).IR >>> 12 = 12 ∧ m.REG CX ≠ 0
          ∨ (fetched m).IR >>> 12 = 13 ∧ 0 ≤ m.REG CX →
        ∃ m', execute_instruction m = .done m' ∧
          m'.REG = m.REG ∧ m'.RAM = m.RAM ∧ m'.PC = m.PC + 1)) := by
  have hjnz : ∀ x : vmfplusone, x.REG CX ≠ 0 → jnz x = jmp x := fun x h => by
    simp only [jnz, if_pos h]
  have hjnz0 : ∀ x : vmfplusone, x.REG CX = 0 → jnz x = .done x := fun x h => by
    simp only [jnz, h, ne_eq, not_true_eq_false, if_false]
  have hjz : ∀ x : vmfplusone, x.REG CX = 0 → jz x = jmp x := fun x h => by
    simp only [jz, if_pos h]
  have hjz0 : ∀ x : vmfplusone, x.REG CX ≠ 0 → jz x = .done x := fun x h => by
    simp only [jz, if_neg h]
  have hjn : ∀ x : vmfplusone, x.REG CX < 0 → jn x = jmp x := fun x h => by
    simp only [jn, if_pos h]
  have hjn0 : ∀ x : vmfplusone, 0 ≤ x.REG CX → jn x = .done x := fun x h => by
    have : ¬ x.REG CX < 0 := by omega
    simp only [jn, if_neg this]
  refine ⟨fun h => ⟨hjnz m h, hjz0 m h⟩, fun h => ⟨hjz m h, hjnz0 m h⟩, hjn m, hjn0 m,
    fun hpc => ?_⟩
  have hcx : (fetched m).REG CX = m.REG CX := rfl
  have hex := execute_instruction_eq m hpc
  constructor
  · rintro (⟨hop, h⟩ | ⟨hop, h⟩ | ⟨hop, h⟩)
    · rw [hex, hop]; simp only [ops]; rw [hjnz _ (by rw [hcx]; exact h)]
    · rw [hex, hop]; simp only [ops]; rw [hjz _ (by rw [hcx]; exact h)]
    · rw [hex, hop]; simp only [ops]; rw [hjn _ (by rw [hcx]; exact h)]
  · have hmod : (m.PC + 1) % 65536 = m.PC + 1 := Nat.mod_eq_of_lt (by omega)
    rintro (⟨hop, h⟩ | ⟨hop, h⟩ | ⟨hop, h⟩)
    · refine ⟨{ fetched m with PC := m.PC + 1 }, ?_, rfl, rfl, rfl⟩
      rw [hex, hop]; simp only [ops]; rw [hjnz0 _ (by rw [hcx]; exact h)]
      simp only [then_increment, fetched, hmod]
    · refine ⟨{ fetched m with PC := m.PC + 1 }, ?_, rfl, rfl, rfl⟩
      rw [hex, hop]; simp only [ops]; rw [hjz0 _ (by rw [hcx]; exact h)]
      simp only [then_increment, fetched, hmod]
    · refine ⟨{ fetched m with PC := m.PC + 1 }, ?_, rfl, rfl, rfl⟩
      rw [hex, hop]; simp only [ops]; rw [hjn0 _ (by rw [hcx]; exact h)]
      simp only [then_increment, fetched, hmod]

/-- Witness of C19: on the machine as constructed (`cx = 0`, `PC = 1`), `jn 2112` (the word
`0xd840`) is not taken and leaves `PC = 2` with registers and memory as they were, and
`jz 5` (the word `0xc005`) is taken and ends as `jmp` does. -/
theorem conditional_jumps_witness :
    assemble [] "jn 2112".toList = .ok 0xd840 ∧ assemble [] "jz 5".toList = .ok 0xc005 ∧
    (∃ m', execute_instruction (one_instruction 0xd840) = .done m' ∧
      m'.REG = (one_instruction 0xd840).REG ∧ m'.RAM = (one_instruction 0xd840).RAM ∧
      m'.PC = (one_instruction 0xd840).PC + 1) ∧
    execute_instruction (one_instruction 0xc005)
      = then_increment (jmp (fetched (one_instruction 0xc005))) ∧
    jz (with_reg CX 0 0xc005) = jmp (with_reg CX 0 0xc005) ∧
    jnz (with_reg CX 0 0xc005) = .done (with_reg CX 0 0xc005) :=
  ⟨rfl, rfl,
   ((conditional_jumps (one_instruction 0xd840)).2.2.2.2 (by decide)).2
     (Or.inr (Or.inr ⟨by decide, by decide⟩)),
   ((conditional_jumps (one_instruction 0xc005)).2.2.2.2 (by decide)).1
     (Or.inr (Or.inl ⟨by decide, rfl⟩)),
   ((conditional_jumps (with_reg CX 0 0xc005)).2.1 rfl).1,
   ((conditional_jumps (with_reg CX 0 0xc005)).2.1 rfl).2⟩

/-! ## C14: `load` -/

/-- C14 (as amended): on every machine, if `ma` is in `[4096, 32767]`, `load` returns with
`REG[dst] = RAM[ma]` and nothing else changed; if `ma` is below 4096, `load` throws 2, the
code that `pop` throws on an empty stack, and changes no register and no memory cell. -/
theorem load_checks_ma (m : vmfplusone) :
    (4096 ≤ m.REG MAR → m.REG MAR ≤ 32767 →
      load m = .done { m with REG := (Function.update m.REG (decode_dst m)
        (m.RAM (m.REG MAR).toNat)) }) ∧
    (m.REG MAR < 4096 → load m = .thrown 2 m) := by
  constructor
  · intro hlo hhi
    have h1 : ¬ m.REG MAR < StackSegment := by simp only [StackSegment]; omega
    have h2 : 0 ≤ m.REG MAR ∧ m.REG MAR < (MEMSIZE : Int) := by
      refine ⟨by omega, ?_⟩
      simp only [MEMSIZE]; omega
    simp only [load, if_neg h1, read_RAM, if_pos h2]
  · intro hlt
    have h1 : m.REG MAR < StackSegment := by simp only [StackSegment]; omega
    simp only [load, if_pos h1]

/-- Witness of C14 (as amended): `load bx` (the word `0x8001`) with `ma = 4096` and with
`ma = 0` on the machine as constructed. -/
theorem load_checks_ma_witness :
    assemble [] "load bx".toList = .ok 0x8001 ∧
    load (with_reg MAR 4096 0x8001) = .done { with_reg MAR 4096 0x8001 with
      REG := (Function.update (with_reg MAR 4096 0x8001).REG (decode_dst (with_reg MAR 4096 0x8001))
        ((with_reg MAR 4096 0x8001).RAM ((with_reg MAR 4096 0x8001).REG MAR).toNat)) } ∧
    load (with_reg MAR 0 0x8001) = .thrown 2 (with_reg MAR 0 0x8001) :=
  ⟨rfl, (load_checks_ma (with_reg MAR 4096 0x8001)).1 (by decide) (by decide),
   (load_checks_ma (with_reg MAR 0 0x8001)).2 (by decide)⟩

/-- C14 as stated fails: with `ma = 0` and an empty stack, `load` and `pop` throw the same
code, so the signal of `load` is not of a kind distinct from StackUnderflow. -/
theorem load_throws_the_code_of_pop :
    (with_reg MAR 0 0x8001).REG MAR < 4096 ∧ (with_reg MAR 0 0x8001).REG SP = 4096 ∧
    ∃ code, load (with_reg MAR 0 0x8001) = .thrown code (with_reg MAR 0 0x8001) ∧
      pop (with_reg MAR 0 0x8001) = .thrown code (with_reg MAR 0 0x8001) :=
  ⟨by decide, rfl, 2, rfl, rfl⟩

/-! ## C20: `next_token` on a decimal literal and at the end of the line -/

theorem char_type_white {c : Char} (h : c = ' ' ∨ c = '\t' ∨ c = '\n') : char_type c = 1 := by
  rcases h with rfl | rfl | rfl <;> decide

theorem digit_of_char_type {c : Char} (h : char_type c = 2) : 48 ≤ c.toNat ∧ c.toNat ≤ 57 := by
  by_contra hn
  have h47 : ¬ (c.toNat > 47 ∧ c.toNat < 58) := by omega
  simp only [char_type, h47, if_false] at h
  split_ifs at h <;> omega

theorem char_type_nul {c : Char} (h : c.toNat = 0) : char_type c = 0 := by
  simp [char_type, h]

/-- C20 (as amended): let the characters from the cursor on be the white space `ws`
(spaces, tabs, newlines) followed by something else. If that is a maximal run of digits
`ds` whose value is below `2^31`, `next_token` returns the base-10 value of `ds`, leaves
the output buffer empty and the cursor on the first character after the run. If it is
the terminator, `next_token` returns -1 with the cursor on the terminator and the buffer
as it was. -/
theorem next_token_on_digits (input : List Char) (position : Nat) (token_out ws : List Char)
    (hws : ∀ c ∈ ws, c = ' ' ∨ c = '\t' ∨ c = '\n') :
    (∀ ds rest, input.drop position = ws ++ (ds ++ rest) → is_literal ds →
      (∀ c ∈ rest.head?, ¬ (48 ≤ c.toNat ∧ c.toNat ≤ 57)) → lit_value ds < 2147483648 →
      next_token input position token_out
        = ⟨(lit_value ds : Int), position + ws.length + ds.length, []⟩) ∧
    (∀ rest, input.drop position = ws ++ rest → (∀ c ∈ rest.head?, c.toNat = 0) →
      next_token input position token_out = ⟨-1, position + ws.length, token_out⟩) := by
  have hws1 : ∀ c ∈ ws, char_type c = 1 := fun c hc => char_type_white (hws c hc)
  constructor
  · intro ds rest h hds hrest hb
    obtain ⟨hne, hd⟩ := hds
    obtain ⟨c, cs, rfl⟩ := List.exists_cons_of_ne_nil hne
    have hc := char_type_digit (hd c (by simp))
    have hskip : skip_white (input.drop position) position = position + ws.length := by
      rw [h]; apply skip_white_append _ _ _ hws1
      intro d hd; simp at hd; subst hd; omega
    have hdrop := drop_add_of_drop_eq input h
    have hsym := symbol_loop_append [] (c :: cs ++ rest) (position + ws.length) [] 0
      (by simp) (by intro d hd; simp at hd; subst hd; omega)
    have hdig := digit_loop_append (c :: cs) rest (position + ws.length) 0
      (fun d hd' => char_type_digit (hd d hd'))
      (fun d hd' h2 => hrest d hd' (digit_of_char_type h2))
    have hc0 : c.toNat ≠ 0 := by have := hd c (by simp); omega
    simp only [List.nil_append, List.length_nil, Nat.add_zero, Nat.cast_zero,
      Int.add_zero] at hsym
    simp only [next_token, hskip, hdrop, hsym, hdig, digits_from_zero _ hd, wrap32_nat hb]
    simp [hc0]
  · intro rest h hrest
    have hskip : skip_white (input.drop position) position = position + ws.length := by
      rw [h]; apply skip_white_append _ _ _ hws1
      intro d hd
      have := char_type_nul (hrest d hd)
      omega
    have hdrop := drop_add_of_drop_eq input h
    cases rest with
    | nil => simp only [next_token, hskip, hdrop]
    | cons c cs =>
      have hc0 : c.toNat = 0 := hrest c (by simp)
      simp only [next_token, hskip, hdrop, hc0, if_true]

/-- Witness of C20 (as amended): the line `  12ab` read from the cursor 0, and the line of
two spaces. -/
theorem next_token_on_digits_witness :
    next_token "  12ab".toList 0 ['x'] = ⟨12, 4, []⟩ ∧
    next_token "  ".toList 0 ['x'] = ⟨-1, 2, ['x']⟩ :=
  ⟨(next_token_on_digits "  12ab".toList 0 ['x'] "  ".toList (by decide)).1
      "12".toList "ab".toList rfl (by decide) (by decide) (by decide),
   (next_token_on_digits "  ".toList 0 ['x'] "  ".toList (by decide)).2 [] rfl (by decide)⟩

/-- C20 as stated fails: on the line `4294967296` the next character is a digit and the
maximal run of digits has the value 4294967296, yet `next_token` returns 0, what the 32-bit
accumulator holds after the last digit. -/
theorem next_token_on_digits_overflow :
    is_literal "4294967296".toList ∧ lit_value "4294967296".toList = 4294967296 ∧
    next_token "4294967296".toList 0 [] = ⟨0, 10, []⟩ ∧
    (next_token "4294967296".toList 0 []).result ≠ (lit_value "4294967296".toList : Int) :=
  ⟨by decide, by decide, rfl, by decide⟩

/-! ## C21: the register indices of assembled words -/

theorem lookup_getD_le (l : List (List Char × Nat)) (key : List Char) (b : Nat)
    (h : ∀ p ∈ l, p.2 ≤ b) : (l.lookup key).getD 0 ≤ b := by
  induction l with
  | nil => simp
  | cons p ps ih =>
    obtain ⟨k, v⟩ := p
    have hv : v ≤ b := h (k, v) (by simp)
    have hps := ih (fun q hq => h q (by simp [hq]))
    simp only [List.lookup]
    split
    · simpa using hv
    · exact hps

/-- Whatever the symbol, `Registers[reg]` is one of the six indices. -/
theorem Registers_le (reg : List Char) : Registers reg ≤ 5 :=
  lookup_getD_le Registers_init reg 5 (by decide)

theorem bits32_of_nonneg {x : Int} (h0 : 0 ≤ x) (h1 : x < 4294967296) :
    bits32 x = x.toNat := by
  unfold bits32; congr 1; omega

/-- The word of a two-operand instruction with an immediate source, as a sum. -/
theorem word_imm_reg_nat {opc n idx : Nat} (ho : opc < 16) (hn : n < 256) (hi : idx < 8) :
    ((((opc <<< 12) % 65536) ||| (n <<< 3)) % 65536 ||| idx) % 65536
      = opc * 4096 + n * 8 + idx := by
  have h1 := shl12_lt ho
  have h2 : n <<< 3 < 65536 := by rw [Nat.shiftLeft_eq]; omega
  rw [Nat.mod_eq_of_lt h1, or_mod_u16 h1 h2, or_mod_u16 (or_lt_u16 h1 h2) (by omega),
    word_imm_reg_sum hn hi]

/-- The word of `push` or `store` with an immediate operand, as a sum. -/
theorem word_imm_nat {opc n : Nat} (ho : opc < 16) (hn : n < 4096) :
    (((opc <<< 12) % 65536) ||| n) % 65536 = opc * 4096 + n := by
  have h1 := shl12_lt ho
  rw [Nat.mod_eq_of_lt h1, or_mod_u16 h1 (by omega), word_imm_sum hn]

/-- The source register of a word, from its bits 3 to 11. -/
theorem src_register_eq (s : vmfplusone) :
    src_register s = if s.IR / 2048 % 2 = 1 then some (s.IR / 8 % 256) else none := by
  have h2 : s.IR / 2048 % 2 = 0 ∨ s.IR / 2048 % 2 = 1 := by omega
  rcases h2 with h | h <;> simp [src_register, flag_bit, field_src, h]

/-- C21 (as amended): let `assemble` accept a line with the word `w`, and let the value that
`next_token` returns for the first operand be non-negative (as it is for a register and
for every literal below `2^31`). On every machine with `IR = w`: if the mnemonic is in
the two-operand class, `decode_dst` is at most 5, the register index that `decode_src_8`
reads, if it reads one, is at most 5, and `decode_src_8` stays inside `REG`; if the
mnemonic is push or store, the register index that `decode_src_11` reads, if it reads
one, is at most 5, and `decode_src_11` stays inside `REG`. -/
theorem assembled_register_indices (operation input : List Char) (m : vmfplusone) (w : Nat)
    (hacc : assemble operation input = .ok w)
    (hnn : 0 ≤ (next_token input (next_token input 0 operation).position
      (next_token input 0 operation).token_out).result) :
    ((next_token input 0 operation).token_out ∈ two_operand →
      decode_dst { m with IR := w } ≤ 5 ∧
      (∀ i, src_register { m with IR := w } = some i → i ≤ 5) ∧
      (decode_src_8 { m with IR := w }).isSome) ∧
    ((next_token input 0 operation).token_out ∈ eleven_bit →
      (∀ i, src_register { m with IR := w } = some i → i ≤ 5) ∧
      (decode_src_11 { m with IR := w }).isSome) := by
  generalize ht1 : next_token input 0 operation = t1 at hacc hnn ⊢
  simp only [assemble, ht1] at hacc
  generalize ht2 : next_token input t1.position t1.token_out = t2 at hacc hnn
  generalize ht3 : next_token input t2.position t2.token_out = t3 at hacc
  have hr2 := Registers_le t2.token_out
  have hr3 := Registers_le t3.token_out
  constructor
  · intro hop
    obtain ⟨hsym, h015, hcls, hlt⟩ := two_operand_facts _ hop
    simp only [if_neg hsym.1, if_neg h015, if_pos hcls] at hacc
    have key : (∃ n, n < 256 ∧ w = Opcodes t1.token_out * 4096 + n * 8 + Registers t3.token_out)
        ∨ w = Opcodes t1.token_out * 4096 + 2048 + Registers t2.token_out * 8
            + Registers t3.token_out := by
      split_ifs at hacc with h1 h2 h3 h4 h5
      · left
        refine ⟨t2.result.toNat, by omega, ?_⟩
        have hw := Except.ok.inj hacc
        rw [bits32_of_nonneg hnn (by omega),
          word_imm_reg_nat hlt (by omega) (by omega)] at hw
        exact hw.symm
      · right
        have hw := Except.ok.inj hacc
        rw [word_reg_reg hlt (by omega) (by omega)] at hw
        exact hw.symm
    rw [src_register_eq, decode_dst]
    rcases key with ⟨n, hn, rfl⟩ | rfl
    · refine ⟨by simp only []; omega, ?_, ?_⟩
      · intro i hi
        have h0 : ¬ ((Opcodes t1.token_out * 4096 + n * 8 + Registers t3.token_out)
            / 2048 % 2 = 1) := by omega
        simp only [if_neg h0] at hi
        exact absurd hi (by simp)
      · rw [decode_src_8_imm _ (by simp only []; omega)]; rfl
    · refine ⟨by simp only []; omega, ?_, ?_⟩
      · intro i hi
        have h1 : (Opcodes t1.token_out * 4096 + 2048 + Registers t2.token_out * 8
            + Registers t3.token_out) / 2048 % 2 = 1 := by omega
        simp only [if_pos h1, Option.some.injEq] at hi
        omega
      · rw [decode_src_8_reg _ (by simp only []; omega) (by simp only []; omega)]; rfl
  · intro hop
    obtain ⟨hsym, h015, hcls, h59, hlt⟩ := eleven_bit_facts _ hop
    simp only [if_neg hsym.1, if_neg h015, if_neg hcls, if_pos h59] at hacc
    have key : (∃ n, n < 2048 ∧ w = Opcodes t1.token_out * 4096 + n)
        ∨ w = Opcodes t1.token_out * 4096 + 2048 + Registers t2.token_out * 8 := by
      split_ifs at hacc with h1 h2 h3
      · left
        refine ⟨t2.result.toNat, by omega, ?_⟩
        have hw := Except.ok.inj hacc
        rw [bits32_of_nonneg hnn (by omega), word_imm_nat hlt (by omega)] at hw
        exact hw.symm
      · right
        have hw := Except.ok.inj hacc
        rw [word_reg11 hlt (by omega)] at hw
        exact hw.symm
    rw [src_register_eq]
    rcases key with ⟨n, hn, rfl⟩ | rfl
    · refine ⟨?_, ?_⟩
      · intro i hi
        have h0 : ¬ ((Opcodes t1.token_out * 4096 + n) / 2048 % 2 = 1) := by omega
        simp only [if_neg h0] at hi
        exact absurd hi (by simp)
      · rw [decode_src_11_imm _ (by simp only []; omega)]; rfl
    · refine ⟨?_, ?_⟩
      · intro i hi
        have h1 : (Opcodes t1.token_out * 4096 + 2048 + Registers t2.token_out * 8)
            / 2048 % 2 = 1 := by omega
        simp only [if_pos h1, Option.some.injEq] at hi
        omega
      · rw [decode_src_11_reg _ (by simp only []; omega) (by simp only []; omega)]; rfl

/-- Witness of C21 (as amended): `add bx cx` (the word `0x180a`) and `push sp` (the word
`0x5818`) on the machine as constructed. -/
theorem assembled_register_indices_witness :
    assemble [] "add bx cx".toList = .ok 0x180a ∧ assemble [] "push sp".toList = .ok 0x5818 ∧
    (decode_dst { vmfplusone.construct (fun _ => 0) with IR := 0x180a } ≤ 5 ∧
      (∀ i, src_register { vmfplusone.construct (fun _ => 0) with IR := 0x180a } = some i →
        i ≤ 5) ∧
      (decode_src_8 { vmfplusone.construct (fun _ => 0) with IR := 0x180a }).isSome) ∧
    ((∀ i, src_register { vmfplusone.construct (fun _ => 0) with IR := 0x5818 } = some i →
        i ≤ 5) ∧
      (decode_src_11 { vmfplusone.construct (fun _ => 0) with IR := 0x5818 }).isSome) :=
  ⟨rfl, rfl,
   (assembled_register_indices [] "add bx cx".toList (vmfplusone.construct (fun _ => 0))
      0x180a rfl (by decide)).1 (by decide),
   (assembled_register_indices [] "push sp".toList (vmfplusone.construct (fun _ => 0))
      0x5818 rfl (by decide)).2 (by decide)⟩

/-- C21 as stated fails: `assemble` accepts `add 4294959368 ax`, whose literal the 32-bit
accumulator of `next_token` holds as -7928, below the limit 256; the word is `0x1840`, an
`add` with the register flag set and the register field 8, so `decode_src_8` reads
`REG[8]`, an index above 5 and outside the array. `push 4294903872` gives `0x5840` and
the same read in `decode_src_11`. -/
theorem assembled_register_indices_overflow :
    (next_token "add 4294959368 ax".toList 0 []).token_out ∈ two_operand ∧
    assemble [] "add 4294959368 ax".toList = .ok 0x1840 ∧
    src_register (with_reg AX 0 0x1840) = some 8 ∧
    decode_src_8 (with_reg AX 0 0x1840) = none ∧
    (next_token "push 4294903872".toList 0 []).token_out ∈ eleven_bit ∧
    assemble [] "push 4294903872".toList = .ok 0x5840 ∧
    src_register (with_reg AX 0 0x5840) = some 8 ∧
    decode_src_11 (with_reg AX 0 0x5840) = none :=
  ⟨by decide, rfl, rfl, rfl, by decide, rfl, rfl, rfl⟩

end AMF
